import Mathlib

/-!
Verification development for the nostr-double-ratchet library.

The double-ratchet `Session` itself is shipped without its source here (only
its tests and callers are present), so the `DR` namespace is a shallow
embedding modelled from the specification's description of the session state
machine.  The other namespaces (`InviteCodec`, `IL`, `DevRec`, `Relay`) are
translated directly from the TypeScript sources `inviteUtils.ts`,
`InviteList.ts`, `Invite.ts`, `DeviceRecord.ts` and `ControllableRelay.ts`.

Cryptographic primitives (ECDH conversation keys, NIP-44 AEAD, HKDF chains,
Schnorr signatures) are external collaborators that the spec assumes correct;
they are embedded symbolically: a key is a term, a ciphertext remembers the
key it was sealed under together with its plaintext, and decryption succeeds
exactly when the same key is supplied.
-/

namespace DR

/-- Modelled from the spec: private keys of the missing `Session.ts`.
`Priv.idk n` is a long-term identity key, `Priv.eph who i` the `i`-th
ephemeral ratchet key generated by one of the two parties of a session
(the freshness oracle of `generateSecretKey`). -/
inductive Priv where
  | idk : Nat → Priv
  | eph : Bool → Nat → Priv
  deriving DecidableEq, Repr

/-- Nostr public keys; in the symbolic model a public key is its keypair's
tag (`getPublicKey` is injective, and secrecy is not modelled). -/
abbrev Pub := Priv

/-- Symbolic `getPublicKey`. -/
def pubOf (p : Priv) : Pub := p

/-- Injective encoding of keys, used to normalise Diffie-Hellman pairs. -/
def Priv.enc : Priv → Nat
  | .idk n => 3 * n
  | .eph false i => 3 * i + 1
  | .eph true i => 3 * i + 2

/-- Modelled from the spec: symbolic 32-byte strings (root keys, chain keys,
message keys, shared secrets, KDF outputs). -/
inductive Bytes where
  | raw : Nat → Bytes
  | dh : Nat → Nat → Bytes
  | kdf : Nat → Bytes → Bytes → Bytes
  deriving DecidableEq, Repr

/-- Modelled from the spec: ECDH conversation key.  The two encodings are
ordered so that `conv a (pubOf b) = conv b (pubOf a)`. -/
def conv (sk : Priv) (pk : Pub) : Bytes :=
  Bytes.dh (min sk.enc pk.enc) (max sk.enc pk.enc)

/-- Modelled from the spec: `kdf2 (input, salt) -> (32B, 32B)`. -/
def kdf2 (input salt : Bytes) : Bytes × Bytes :=
  (Bytes.kdf 0 input salt, Bytes.kdf 1 input salt)

/-- Modelled from the spec: chain step `chainKey, messageKey = kdf2(chainKey, const)`. -/
def chainStep (ck : Bytes) : Bytes × Bytes :=
  kdf2 ck (Bytes.raw 0)

/-- Modelled from the spec: the unsigned inner event carried inside a
ratchet message (`{pubkey: ourIdentityPub, content: plaintext}`). -/
structure InnerEvent where
  pubkey : Pub
  content : String
  deriving DecidableEq, Repr

/-- Symbolic AEAD ciphertext: remembers its key and its plaintext. -/
structure Ciphertext where
  key : Bytes
  plain : InnerEvent
  deriving DecidableEq, Repr

/-- Symbolic AEAD decryption: succeeds iff the right key is supplied. -/
def decryptC (c : Ciphertext) (k : Bytes) : Option InnerEvent :=
  if c.key = k then some c.plain else none

/-- Modelled from the spec: per-message header data carried in the outer
event's tags (message number, previous chain length, and the advertised
next ratchet public key). -/
structure Header where
  number : Nat
  previousChainLength : Nat
  nextPublicKey : Pub
  deriving DecidableEq, Repr

/-- Modelled from the spec: the signed outer event.  Its `pubkey` is the
public half of the sender's current ratchet key. -/
structure MessageEvent where
  pubkey : Pub
  header : Header
  content : Ciphertext
  deriving DecidableEq, Repr

/-- Nostr key pair as stored in `SessionState`. -/
structure KeyPair where
  publicKey : Pub
  privateKey : Priv
  deriving DecidableEq, Repr

/-- Modelled from the spec: the authoritative `SessionState` (field names
follow the test fixtures of `UserRecord.test.ts`).  `ourIdentityPub`,
`whoami` and `ctr` are modelling devices: the identity key placed in inner
events and the deterministic freshness oracle for `generateSecretKey`. -/
structure SessionState where
  rootKey : Bytes
  theirCurrentNostrPublicKey : Option Pub
  theirNextNostrPublicKey : Pub
  ourCurrentNostrKey : Option KeyPair
  ourNextNostrKey : KeyPair
  receivingChainKey : Option Bytes
  sendingChainKey : Option Bytes
  sendingChainMessageNumber : Nat
  receivingChainMessageNumber : Nat
  previousSendingChainMessageCount : Nat
  skippedKeys : List (Pub × List (Nat × Bytes))
  ourIdentityPub : Pub
  whoami : Bool
  ctr : Nat
  deriving DecidableEq, Repr

/-- Modelled from the spec: `MAX_SKIP = 1000`, the canonical bound on the
skipped-message-key cache. -/
def MAX_SKIP : Nat := 1000

/-- Modelled from the spec: `Session.init`.  Both sides mix the shared
secret with `DH(ourIdentityPriv, theirIdentityPub)`; the initiator keeps the
result as its sending chain and sends under its identity key, the responder
keeps it as its receiving chain, listens on the peer's key and leaves
`ourCurrentNostrKey` null until its first outbound ratchet step (its
identity key pair waits in `ourNextNostrKey`). -/
def init (theirPub : Pub) (ourPriv : Priv) (isInitiator : Bool) (sharedSecret : Bytes) :
    SessionState :=
  let convK := conv ourPriv theirPub
  let rc := kdf2 sharedSecret convK
  if isInitiator then
    { rootKey := rc.1
      theirCurrentNostrPublicKey := none
      theirNextNostrPublicKey := theirPub
      ourCurrentNostrKey := some ⟨pubOf ourPriv, ourPriv⟩
      ourNextNostrKey := ⟨pubOf (Priv.eph true 0), Priv.eph true 0⟩
      receivingChainKey := none
      sendingChainKey := some rc.2
      sendingChainMessageNumber := 0
      receivingChainMessageNumber := 0
      previousSendingChainMessageCount := 0
      skippedKeys := []
      ourIdentityPub := pubOf ourPriv
      whoami := true
      ctr := 1 }
  else
    { rootKey := rc.1
      theirCurrentNostrPublicKey := some theirPub
      theirNextNostrPublicKey := theirPub
      ourCurrentNostrKey := none
      ourNextNostrKey := ⟨pubOf ourPriv, ourPriv⟩
      receivingChainKey := some rc.2
      sendingChainKey := none
      sendingChainMessageNumber := 0
      receivingChainMessageNumber := 0
      previousSendingChainMessageCount := 0
      skippedKeys := []
      ourIdentityPub := pubOf ourPriv
      whoami := false
      ctr := 0 }

/-- Derive and collect the message keys for numbers `n, n+1, ..., n+gap-1`
from chain key `ck`; returns the skipped `(number, messageKey)` pairs and
the chain key for number `n+gap`. -/
def skipChain (ck : Bytes) (n gap : Nat) : List (Nat × Bytes) × Bytes :=
  match gap with
  | 0 => ([], ck)
  | g + 1 =>
    let st := chainStep ck
    let rest := skipChain st.1 (n + 1) g
    ((n, st.2) :: rest.1, rest.2)

/-- Look up a cached skipped message key. -/
def lookupSkipped (sk : List (Pub × List (Nat × Bytes))) (p : Pub) (n : Nat) :
    Option Bytes :=
  match sk.find? (fun e => e.1 = p) with
  | none => none
  | some e =>
    match e.2.find? (fun q => q.1 = n) with
    | none => none
    | some q => some q.2

/-- Remove a consumed skipped key; an entry left empty is dropped. -/
def evictSkipped (sk : List (Pub × List (Nat × Bytes))) (p : Pub) (n : Nat) :
    List (Pub × List (Nat × Bytes)) :=
  sk.foldr
    (fun e acc =>
      if e.1 = p then
        let l := e.2.filter (fun q => q.1 ≠ n)
        if l.isEmpty then acc else (e.1, l) :: acc
      else e :: acc)
    []

/-- Append freshly skipped keys under a ratchet public key (insertion order
FIFO; a no-op when there is nothing to add). -/
def addSkipped (sk : List (Pub × List (Nat × Bytes))) (p : Pub)
    (pairs : List (Nat × Bytes)) : List (Pub × List (Nat × Bytes)) :=
  if pairs.isEmpty then sk
  else if (sk.find? (fun e => e.1 = p)).isSome then
    sk.map (fun e => if e.1 = p then (e.1, e.2 ++ pairs) else e)
  else sk ++ [(p, pairs)]

/-- Modelled from the spec: the outbound DH ratchet step performed when
`sendingChainKey` is absent: ratchet with `ourNextRatchetKey` and
`theirNextRatchetPublic`, promote `ourCurrentRatchetKey := ourNextRatchetKey`,
generate a new `ourNextRatchetKey`, reset the sending counter. -/
def sendRatchet (s : SessionState) : SessionState :=
  let cur := s.ourNextNostrKey
  let freshPriv := Priv.eph s.whoami s.ctr
  let rc := kdf2 s.rootKey (conv cur.privateKey s.theirNextNostrPublicKey)
  { s with
    rootKey := rc.1
    sendingChainKey := some rc.2
    ourCurrentNostrKey := some cur
    ourNextNostrKey := ⟨pubOf freshPriv, freshPriv⟩
    previousSendingChainMessageCount := s.sendingChainMessageNumber
    sendingChainMessageNumber := 0
    ctr := s.ctr + 1 }

/-- Modelled from the spec: `send(plaintext)`.  Ratchets if the sending
chain is absent, derives the message key by a chain step, builds the inner
event, seals it under the message key and emits the outer event under the
public half of the current ratchet key, with the header advertising the
next ratchet public key. -/
def send (s : SessionState) (plaintext : String) : Option (MessageEvent × SessionState) :=
  let s := if s.sendingChainKey.isNone then sendRatchet s else s
  match s.sendingChainKey, s.ourCurrentNostrKey with
  | some ck, some cur =>
    let st := chainStep ck
    let inner : InnerEvent := ⟨s.ourIdentityPub, plaintext⟩
    let e : MessageEvent :=
      { pubkey := cur.publicKey
        header := ⟨s.sendingChainMessageNumber, s.previousSendingChainMessageCount,
                   s.ourNextNostrKey.publicKey⟩
        content := ⟨st.2, inner⟩ }
    some (e, { s with
                 sendingChainKey := some st.1
                 sendingChainMessageNumber := s.sendingChainMessageNumber + 1 })
  | _, _ => none

/-- Modelled from the spec: the current-receiving-chain branch of
`decryptEvent`.  Skipped keys up to `number - 1` are derived and cached
under the sender's ratchet public key; on AEAD failure the caller keeps the
old state. -/
def tryCurrentChain (s : SessionState) (e : MessageEvent) :
    Option (InnerEvent × SessionState) :=
  match s.receivingChainKey with
  | none => none
  | some ck =>
    if e.header.number < s.receivingChainMessageNumber then none
    else
      let gap := e.header.number - s.receivingChainMessageNumber
      let sk := skipChain ck s.receivingChainMessageNumber gap
      let st := chainStep sk.2
      match decryptC e.content st.2 with
      | none => none
      | some inner =>
        some (inner,
          { s with
              receivingChainKey := some st.1
              receivingChainMessageNumber := e.header.number + 1
              theirNextNostrPublicKey := e.header.nextPublicKey
              skippedKeys := addSkipped s.skippedKeys e.pubkey sk.1 })

/-- Modelled from the spec: the DH-ratchet branch of `decryptEvent`,
triggered when the event's pubkey equals `theirNextRatchetPublic`.
Remaining keys of the old receiving chain are finalised into `skippedKeys`
up to `previousChainLength - 1`; the ratchet keys rotate
(`ourCurrent := ourNext`, fresh `ourNext`,
`theirCurrent := event.pubkey`, `theirNext := header.nextPublicKey`); the
new receiving chain is derived from `DH(ourCurrent, event.pubkey)` and the
new sending chain from `DH(ourCurrent, theirNext)`; counters reset.  On
AEAD failure the caller keeps the old state. -/
def tryRatchet (s : SessionState) (e : MessageEvent) :
    Option (InnerEvent × SessionState) :=
  let oldPairs :=
    match s.receivingChainKey with
    | some ck =>
      (skipChain ck s.receivingChainMessageNumber
        (e.header.previousChainLength - s.receivingChainMessageNumber)).1
    | none => []
  let sk1 :=
    match s.theirCurrentNostrPublicKey with
    | some pcur => addSkipped s.skippedKeys pcur oldPairs
    | none => s.skippedKeys
  let cur := s.ourNextNostrKey
  let freshPriv := Priv.eph s.whoami s.ctr
  let rc1 := kdf2 s.rootKey (conv cur.privateKey e.pubkey)
  let theirNext := e.header.nextPublicKey
  let rc2 := kdf2 rc1.1 (conv cur.privateKey theirNext)
  let sk := skipChain rc1.2 0 e.header.number
  let st := chainStep sk.2
  match decryptC e.content st.2 with
  | none => none
  | some inner =>
    some (inner,
      { rootKey := rc2.1
        theirCurrentNostrPublicKey := some e.pubkey
        theirNextNostrPublicKey := theirNext
        ourCurrentNostrKey := some cur
        ourNextNostrKey := ⟨pubOf freshPriv, freshPriv⟩
        receivingChainKey := some st.1
        sendingChainKey := some rc2.2
        sendingChainMessageNumber := 0
        receivingChainMessageNumber := e.header.number + 1
        previousSendingChainMessageCount := s.sendingChainMessageNumber
        skippedKeys := addSkipped sk1 e.pubkey sk.1
        ourIdentityPub := s.ourIdentityPub
        whoami := s.whoami
        ctr := s.ctr + 1 })

/-- Modelled from the spec: `decryptEvent`.  Dispatch on the event's
`pubkey`: a cached skipped key is consumed first, then the current
receiving chain, then the DH-ratchet branch; with no match, and on any
decryption failure, it returns null and the state is left untouched. -/
def decryptEvent (s : SessionState) (e : MessageEvent) :
    Option InnerEvent × SessionState :=
  match lookupSkipped s.skippedKeys e.pubkey e.header.number with
  | some mk =>
    match decryptC e.content mk with
    | some inner =>
      (some inner, { s with skippedKeys := evictSkipped s.skippedKeys e.pubkey e.header.number })
    | none => (none, s)
  | none =>
    if s.theirCurrentNostrPublicKey = some e.pubkey then
      match tryCurrentChain s e with
      | some r => (some r.1, r.2)
      | none => (none, s)
    else if s.theirNextNostrPublicKey = e.pubkey then
      match tryRatchet s e with
      | some r => (some r.1, r.2)
      | none => (none, s)
    else (none, s)

/-- Send a list of plaintexts in order, collecting the emitted events. -/
def sendMany (s : SessionState) : List String → List MessageEvent × SessionState
  | [] => ([], s)
  | p :: ps =>
    match send s p with
    | none => sendMany s ps
    | some (e, s2) =>
      let r := sendMany s2 ps
      (e :: r.1, r.2)

/-- Decrypt a stream of events in delivery order, collecting the results. -/
def processMany (s : SessionState) : List MessageEvent → List (Option InnerEvent) × SessionState
  | [] => ([], s)
  | e :: es =>
    let r := decryptEvent s e
    let rest := processMany r.2 es
    (r.1 :: rest.1, rest.2)

/-- An ordered sequence of sends and receives between the two sessions:
either side sends a payload, or either side receives (decrypts) the `i`-th
event published so far by its peer. -/
inductive Act where
  | asend : String → Act
  | bsend : String → Act
  | arecv : Nat → Act
  | brecv : Nat → Act
  deriving DecidableEq, Repr

/-- A configuration of the two mirrored sessions together with the events
each side has published, paired with the exact plaintext each carries. -/
structure Config where
  alice : SessionState
  bob : SessionState
  abFlight : List (MessageEvent × String)
  baFlight : List (MessageEvent × String)
  deriving DecidableEq, Repr

/-- The mirrored initial configuration of claim C1: both sessions are
initialised from the same shared secret, mirrored `isInitiator`, their own
identity private key and the peer's identity public key. -/
def initConfig (a b : Nat) (sharedSecret : Bytes) : Config :=
  { alice := init (pubOf (Priv.idk b)) (Priv.idk a) true sharedSecret
    bob := init (pubOf (Priv.idk a)) (Priv.idk b) false sharedSecret
    abFlight := []
    baFlight := [] }

/-- One step of the interaction; receives emit an outcome pairing the
decryption result with the plaintext originally passed to `send`. -/
def stepC (c : Config) : Act → Config × List (Option InnerEvent × String)
  | .asend p =>
    match send c.alice p with
    | some (e, s2) => ({ c with alice := s2, abFlight := c.abFlight ++ [(e, p)] }, [])
    | none => (c, [])
  | .bsend p =>
    match send c.bob p with
    | some (e, s2) => ({ c with bob := s2, baFlight := c.baFlight ++ [(e, p)] }, [])
    | none => (c, [])
  | .arecv i =>
    match c.baFlight[i]? with
    | some ep =>
      let r := decryptEvent c.alice ep.1
      ({ c with alice := r.2 }, [(r.1, ep.2)])
    | none => (c, [])
  | .brecv i =>
    match c.abFlight[i]? with
    | some ep =>
      let r := decryptEvent c.bob ep.1
      ({ c with bob := r.2 }, [(r.1, ep.2)])
    | none => (c, [])

/-- Run an ordered sequence of sends and receives, collecting all receive
outcomes. -/
def runC (c : Config) : List Act → List (Option InnerEvent × String)
  | [] => []
  | a :: acts =>
    let r := stepC c a
    r.2 ++ runC r.1 acts

theorem decryptC_plain {c : Ciphertext} {k : Bytes} {i : InnerEvent}
    (h : decryptC c k = some i) : i = c.plain := by
  unfold decryptC at h
  split at h
  · exact (Option.some_inj.mp h).symm
  · exact absurd h (Option.noConfusion)

theorem tryCurrentChain_plain {s : SessionState} {e : MessageEvent}
    {r : InnerEvent × SessionState} (h : tryCurrentChain s e = some r) :
    r.1 = e.content.plain := by
  unfold tryCurrentChain at h
  dsimp only at h
  split at h
  · exact absurd h Option.noConfusion
  · split at h
    · exact absurd h Option.noConfusion
    · split at h
      · exact absurd h Option.noConfusion
      · rename_i inner hd
        cases Option.some_inj.mp h
        exact decryptC_plain hd

theorem tryRatchet_plain {s : SessionState} {e : MessageEvent}
    {r : InnerEvent × SessionState} (h : tryRatchet s e = some r) :
    r.1 = e.content.plain := by
  unfold tryRatchet at h
  dsimp only at h
  split at h
  · exact absurd h Option.noConfusion
  · rename_i inner hd
    cases Option.some_inj.mp h
    exact decryptC_plain hd

theorem decryptEvent_plain {s : SessionState} {e : MessageEvent} {i : InnerEvent}
    (h : (decryptEvent s e).1 = some i) : i = e.content.plain := by
  unfold decryptEvent at h
  split at h
  case h_1 mk hl =>
    split at h
    · rename_i inner hd
      cases Option.some_inj.mp h
      exact decryptC_plain hd
    · exact absurd h Option.noConfusion
  case h_2 hl =>
    split at h
    · split at h
      · rename_i r ht
        cases Option.some_inj.mp h
        exact tryCurrentChain_plain ht
      · exact absurd h Option.noConfusion
    · split at h
      · split at h
        · rename_i r ht
          cases Option.some_inj.mp h
          exact tryRatchet_plain ht
        · exact absurd h Option.noConfusion
      · exact absurd h Option.noConfusion

theorem send_plain {s : SessionState} {p : String} {e : MessageEvent}
    {s2 : SessionState} (h : send s p = some (e, s2)) :
    e.content.plain.content = p := by
  unfold send at h
  dsimp only at h
  split at h
  · rename_i ck cur hck hcur
    cases (Prod.mk.injEq ..).mp (Option.some_inj.mp h) |>.1
    rfl
  · exact absurd h Option.noConfusion

/-- All in-flight events carry, inside their ciphertext, exactly the
plaintext that was passed to `send`. -/
def GoodConfig (c : Config) : Prop :=
  (∀ ep ∈ c.abFlight, ep.1.content.plain.content = ep.2) ∧
  (∀ ep ∈ c.baFlight, ep.1.content.plain.content = ep.2)

theorem stepC_good {c : Config} (hg : GoodConfig c) (a : Act) :
    GoodConfig (stepC c a).1 ∧
      ∀ o ∈ (stepC c a).2, ∀ i, o.1 = some i → i.content = o.2 := by
  rcases hg with ⟨hab, hba⟩
  cases a with
  | asend p =>
    rcases hs : send c.alice p with _ | ⟨e, s2⟩ <;> simp only [stepC, hs]
    · exact ⟨⟨hab, hba⟩, by intro o ho; exact absurd ho (List.not_mem_nil o)⟩
    · refine ⟨⟨?_, hba⟩, by intro o ho; exact absurd ho (List.not_mem_nil o)⟩
      intro ep hep
      rcases List.mem_append.mp hep with h | h
      · exact hab ep h
      · rcases List.mem_singleton.mp h with rfl
        exact send_plain hs
  | bsend p =>
    rcases hs : send c.bob p with _ | ⟨e, s2⟩ <;> simp only [stepC, hs]
    · exact ⟨⟨hab, hba⟩, by intro o ho; exact absurd ho (List.not_mem_nil o)⟩
    · refine ⟨⟨hab, ?_⟩, by intro o ho; exact absurd ho (List.not_mem_nil o)⟩
      intro ep hep
      rcases List.mem_append.mp hep with h | h
      · exact hba ep h
      · rcases List.mem_singleton.mp h with rfl
        exact send_plain hs
  | arecv n =>
    rcases hget : c.baFlight[n]? with _ | ep <;> simp only [stepC, hget]
    · exact ⟨⟨hab, hba⟩, by intro o ho; exact absurd ho (List.not_mem_nil o)⟩
    · refine ⟨⟨hab, hba⟩, ?_⟩
      intro o ho i hi
      rcases List.mem_singleton.mp ho with rfl
      rw [decryptEvent_plain hi]
      exact hba ep (List.getElem?_mem hget)
  | brecv n =>
    rcases hget : c.abFlight[n]? with _ | ep <;> simp only [stepC, hget]
    · exact ⟨⟨hab, hba⟩, by intro o ho; exact absurd ho (List.not_mem_nil o)⟩
    · refine ⟨⟨hab, hba⟩, ?_⟩
      intro o ho i hi
      rcases List.mem_singleton.mp ho with rfl
      rw [decryptEvent_plain hi]
      exact hab ep (List.getElem?_mem hget)

theorem runC_good {c : Config} (hg : GoodConfig c) (acts : List Act) :
    ∀ o ∈ runC c acts, ∀ i, o.1 = some i → i.content = o.2 := by
  induction acts generalizing c with
  | nil => intro o ho; exact absurd ho (List.not_mem_nil o)
  | cons a acts ih =>
    intro o ho i hi
    rcases List.mem_append.mp ho with h | h
    · exact (stepC_good hg a).2 o h i hi
    · exact ih (stepC_good hg a).1 o h i hi

section SingleChain

variable (a b : Nat) (ss : Bytes)

/-- The identity public key of party `x` in the two-party scenarios. -/
def pA (x : Nat) : Pub := pubOf (Priv.idk x)

/-- Alice's freshly initialised initiator session. -/
def initA : SessionState := init (pA b) (Priv.idk a) true ss

/-- Bob's freshly initialised responder session. -/
def initB : SessionState := init (pA a) (Priv.idk b) false ss

/-- The chain key of Alice's first sending chain after `n` chain steps. -/
def chainAt : Nat → Bytes
  | 0 => (kdf2 ss (conv (Priv.idk a) (pA b))).2
  | n + 1 => (chainStep (chainAt n)).1

/-- The message key for message number `n` of Alice's first sending chain. -/
def mkAt (n : Nat) : Bytes := (chainStep (chainAt a b ss n)).2

/-- The event Alice emits for message number `i` with plaintext `p`
while on her first sending chain. -/
def evtA (i : Nat) (p : String) : MessageEvent :=
  { pubkey := pA a
    header := ⟨i, 0, pubOf (Priv.eph true 0)⟩
    content := ⟨mkAt a b ss i, ⟨pA a, p⟩⟩ }

/-- Alice's session state after sending `k` messages on her first chain. -/
def stateA (k : Nat) : SessionState :=
  { initA a b ss with
      sendingChainKey := some (chainAt a b ss k)
      sendingChainMessageNumber := k }

/-- The receiving counter Bob has reached after consuming the message
numbers in `done`. -/
def bnd (done : List Nat) : Nat := done.foldr (fun i m => max (i + 1) m) 0

/-- The message numbers below `bnd done` that Bob has skipped but not yet
consumed. -/
def missing (done : List Nat) : List Nat :=
  (List.range (bnd done)).filter (fun i => ¬ i ∈ done)

/-- Bob's cached skipped-key entry for Alice's first chain. -/
def skEntry (done : List Nat) : List (Nat × Bytes) :=
  (missing done).map (fun i => (i, mkAt a b ss i))

/-- Bob's session state after decrypting, in any order, exactly the
messages whose numbers are listed in `done`. -/
def stateB (done : List Nat) : SessionState :=
  { rootKey := (kdf2 ss (conv (Priv.idk b) (pA a))).1
    theirCurrentNostrPublicKey := some (pA a)
    theirNextNostrPublicKey := if bnd done = 0 then pA a else pubOf (Priv.eph true 0)
    ourCurrentNostrKey := none
    ourNextNostrKey := ⟨pA b, Priv.idk b⟩
    receivingChainKey := some (chainAt a b ss (bnd done))
    sendingChainKey := none
    sendingChainMessageNumber := 0
    receivingChainMessageNumber := bnd done
    previousSendingChainMessageCount := 0
    skippedKeys := if skEntry a b ss done = [] then [] else [(pA a, skEntry a b ss done)]
    ourIdentityPub := pA b
    whoami := false
    ctr := 0 }

theorem conv_comm (x y : Priv) : conv x (pubOf y) = conv y (pubOf x) := by
  unfold conv pubOf
  rw [min_comm, max_comm]

theorem stateA_zero : stateA a b ss 0 = initA a b ss := rfl

theorem chainAt_zero_eq :
    chainAt a b ss 0 = (kdf2 ss (conv (Priv.idk b) (pA a))).2 := by
  show (kdf2 ss (conv (Priv.idk a) (pA b))).2 = _
  rw [show conv (Priv.idk a) (pA b) = conv (Priv.idk b) (pA a) from
    conv_comm (Priv.idk a) (Priv.idk b)]

theorem stateB_nil : stateB a b ss [] = initB a b ss := by
  have h0 : bnd [] = 0 := rfl
  have h1 : skEntry a b ss [] = [] := rfl
  unfold stateB
  rw [h0, h1, if_pos rfl, if_pos rfl, chainAt_zero_eq]
  rfl

theorem send_stateA (k : Nat) (p : String) :
    send (stateA a b ss k) p = some (evtA a b ss k p, stateA a b ss (k + 1)) := rfl

theorem sendMany_stateA (msgs : List String) (k : Nat) :
    sendMany (stateA a b ss k) msgs =
      ((msgs.enumFrom k).map (fun ip => evtA a b ss ip.1 ip.2),
        stateA a b ss (k + msgs.length)) := by
  induction msgs generalizing k with
  | nil => rfl
  | cons p ps ih =>
    show sendMany (stateA a b ss k) (p :: ps) = _
    unfold sendMany
    rw [send_stateA]
    dsimp only
    rw [ih (k + 1), List.enumFrom_cons, List.map_cons]
    have h2 : k + 1 + ps.length = k + (p :: ps).length := by
      simp only [List.length_cons]
      omega
    rw [h2]

theorem bnd_cons (i : Nat) (l : List Nat) : bnd (i :: l) = max (i + 1) (bnd l) := rfl

theorem bnd_append_single (l : List Nat) (j : Nat) :
    bnd (l ++ [j]) = max (bnd l) (j + 1) := by
  induction l with
  | nil => simp [bnd]
  | cons i l ih =>
    rw [List.cons_append, bnd_cons, ih, bnd_cons, max_assoc]

theorem lt_bnd_of_mem {i : Nat} {l : List Nat} (h : i ∈ l) : i < bnd l := by
  induction l with
  | nil => exact absurd h (List.not_mem_nil i)
  | cons j l ih =>
    rw [bnd_cons]
    rcases List.mem_cons.mp h with rfl | h
    · exact lt_max_of_lt_left (Nat.lt_succ_self i)
    · exact lt_max_of_lt_right (ih h)

theorem mem_missing {i : Nat} {done : List Nat} :
    i ∈ missing done ↔ i < bnd done ∧ ¬ i ∈ done := by
  unfold missing
  simp [List.mem_filter, List.mem_range]

theorem find?_eq_self_of_mem {j : Nat} {l : List Nat} (h : j ∈ l) :
    l.find? (fun i => i = j) = some j := by
  induction l with
  | nil => exact absurd h (List.not_mem_nil j)
  | cons x l ih =>
    by_cases hx : x = j
    · subst hx
      simp [List.find?_cons]
    · rcases List.mem_cons.mp h with rfl | h
      · exact absurd rfl hx
      · simp [List.find?_cons, hx, ih h]

theorem skEntry_fst_lt {q : Nat × Bytes} {done : List Nat}
    (h : q ∈ skEntry a b ss done) : q.1 < bnd done := by
  unfold skEntry at h
  rcases List.mem_map.mp h with ⟨i, hi, rfl⟩
  exact (mem_missing.mp hi).1

theorem lookup_stateB_high {done : List Nat} {j : Nat} (hge : bnd done ≤ j) :
    lookupSkipped (stateB a b ss done).skippedKeys (pA a) j = none := by
  show lookupSkipped (if skEntry a b ss done = [] then []
    else [(pA a, skEntry a b ss done)]) (pA a) j = none
  split
  · rfl
  · unfold lookupSkipped
    have h1 : List.find? (fun e => e.1 = pA a) [(pA a, skEntry a b ss done)] =
        some (pA a, skEntry a b ss done) := by simp [List.find?_cons]
    have h2 : (skEntry a b ss done).find? (fun q => q.1 = j) = none := by
      rw [List.find?_eq_none]
      intro q hq
      simp only [decide_eq_true_eq]
      exact Nat.ne_of_lt (Nat.lt_of_lt_of_le (skEntry_fst_lt a b ss hq) hge)
    rw [h1]
    dsimp only
    rw [h2]

theorem lookup_stateB_low {done : List Nat} {j : Nat} (hj : ¬ j ∈ done)
    (hlt : j < bnd done) :
    lookupSkipped (stateB a b ss done).skippedKeys (pA a) j =
      some (mkAt a b ss j) := by
  have hmem : j ∈ missing done := mem_missing.mpr ⟨hlt, hj⟩
  have hne : skEntry a b ss done ≠ [] := by
    unfold skEntry
    intro h
    rw [List.map_eq_nil_iff] at h
    rw [h] at hmem
    exact List.not_mem_nil j hmem
  show lookupSkipped (if skEntry a b ss done = [] then []
    else [(pA a, skEntry a b ss done)]) (pA a) j = _
  rw [if_neg hne]
  unfold lookupSkipped
  have h1 : List.find? (fun e => e.1 = pA a) [(pA a, skEntry a b ss done)] =
      some (pA a, skEntry a b ss done) := by simp [List.find?_cons]
  have h2 : (skEntry a b ss done).find? (fun q => q.1 = j) =
      some (j, mkAt a b ss j) := by
    unfold skEntry
    rw [List.find?_map]
    have h3 : List.find? ((fun q : Nat × Bytes => decide (q.1 = j)) ∘
        fun i => (i, mkAt a b ss i)) (missing done) = some j := by
      have : ((fun q : Nat × Bytes => decide (q.1 = j)) ∘
          fun i => (i, mkAt a b ss i)) = fun i => decide (i = j) := rfl
      rw [this]
      exact find?_eq_self_of_mem hmem
    rw [h3]
    rfl
  rw [h1]
  dsimp only
  rw [h2]

theorem skipChain_chainAt (g m : Nat) :
    skipChain (chainAt a b ss m) m g =
      ((List.range' m g).map (fun i => (i, mkAt a b ss i)), chainAt a b ss (m + g)) := by
  induction g generalizing m with
  | zero => rfl
  | succ g ih =>
    show skipChain (chainAt a b ss m) m (g + 1) = _
    unfold skipChain
    dsimp only
    have hc : (chainStep (chainAt a b ss m)).1 = chainAt a b ss (m + 1) := rfl
    rw [hc, ih (m + 1), List.range'_succ, List.map_cons]
    have hm : m + 1 + g = m + (g + 1) := by omega
    rw [hm]
    rfl

theorem missing_append_low {done : List Nat} {j : Nat} (hlt : j + 1 ≤ bnd done) :
    missing (done ++ [j]) = (missing done).filter (fun i => ¬ i = j) := by
  unfold missing
  rw [bnd_append_single, max_eq_left hlt, List.filter_filter]
  refine List.filter_congr ?_
  intro i _
  by_cases h1 : i ∈ done <;> by_cases h2 : i = j <;>
    simp [h1, h2, List.mem_append]

theorem missing_append_high {done : List Nat} {j : Nat} (hge : bnd done ≤ j) :
    missing (done ++ [j]) =
      missing done ++ List.range' (bnd done) (j - bnd done) := by
  unfold missing
  rw [bnd_append_single, max_eq_right (by omega : bnd done ≤ j + 1)]
  have hsplit : List.range (j + 1) =
      List.range (bnd done) ++ List.range' (bnd done) (j + 1 - bnd done) := by
    rw [List.range_eq_range', List.range_eq_range']
    have h := List.range'_append 0 (bnd done) (j + 1 - bnd done) 1
    rw [show 0 + 1 * bnd done = bnd done by omega,
        show j + 1 - bnd done + bnd done = j + 1 by omega] at h
    exact h.symm
  rw [hsplit, List.filter_append]
  congr 1
  · refine List.filter_congr ?_
    intro i hi
    rw [List.mem_range] at hi
    have hij : ¬ i = j := by omega
    by_cases h1 : i ∈ done <;> simp [h1, hij, List.mem_append]
  · rw [show j + 1 - bnd done = (j - bnd done) + 1 by omega, List.range'_1_concat,
        List.filter_append, show bnd done + (j - bnd done) = j by omega]
    have h2 : List.filter (fun i => decide (¬ i ∈ done ++ [j])) [j] = [] := by
      simp [List.mem_append]
    rw [h2, List.append_nil]
    refine List.filter_eq_self.mpr ?_
    intro i hi
    rw [List.mem_range'_1] at hi
    have hid : ¬ i ∈ done := fun hm => absurd (lt_bnd_of_mem hm) (by omega)
    have hij : ¬ i = j := by omega
    simp [List.mem_append, hid, hij]

theorem skEntry_append_low {done : List Nat} {j : Nat} (hlt : j + 1 ≤ bnd done) :
    skEntry a b ss (done ++ [j]) =
      (skEntry a b ss done).filter (fun q => ¬ q.1 = j) := by
  unfold skEntry
  rw [missing_append_low hlt, List.filter_map]
  rfl

theorem skEntry_append_high {done : List Nat} {j : Nat} (hge : bnd done ≤ j) :
    skEntry a b ss (done ++ [j]) =
      skEntry a b ss done ++
        (List.range' (bnd done) (j - bnd done)).map (fun i => (i, mkAt a b ss i)) := by
  unfold skEntry
  rw [missing_append_high hge, List.map_append]

theorem stepB_skipped {done : List Nat} {j : Nat} (hj : ¬ j ∈ done)
    (hlt : j < bnd done) (p : String) :
    decryptEvent (stateB a b ss done) (evtA a b ss j p) =
      (some ⟨pA a, p⟩, stateB a b ss (done ++ [j])) := by
  have hb : bnd (done ++ [j]) = bnd done := by
    rw [bnd_append_single]
    omega
  have hmem : j ∈ missing done := mem_missing.mpr ⟨hlt, hj⟩
  have hne : skEntry a b ss done ≠ [] := by
    unfold skEntry
    intro h
    rw [List.map_eq_nil_iff] at h
    rw [h] at hmem
    exact List.not_mem_nil j hmem
  unfold decryptEvent
  rw [show (evtA a b ss j p).pubkey = pA a from rfl,
      show (evtA a b ss j p).header.number = j from rfl,
      lookup_stateB_low a b ss hj hlt]
  dsimp only
  rw [show decryptC (evtA a b ss j p).content (mkAt a b ss j) =
      some ⟨pA a, p⟩ from if_pos rfl]
  have hev : evictSkipped (stateB a b ss done).skippedKeys (pA a) j =
      if skEntry a b ss (done ++ [j]) = [] then []
      else [(pA a, skEntry a b ss (done ++ [j]))] := by
    show evictSkipped (if skEntry a b ss done = [] then []
      else [(pA a, skEntry a b ss done)]) (pA a) j = _
    rw [if_neg hne]
    unfold evictSkipped
    rw [List.foldr_cons, List.foldr_nil, if_pos rfl]
    rw [skEntry_append_low a b ss (by omega)]
    rcases hcase : (skEntry a b ss done).filter (fun q => ¬ q.1 = j) with _ | ⟨x, xs⟩
    · rw [show (List.filter (fun q => decide (q.1 ≠ j)) (skEntry a b ss done)) =
        ([] : List (Nat × Bytes)) from hcase]
      rfl
    · rw [show (List.filter (fun q => decide (q.1 ≠ j)) (skEntry a b ss done)) =
        x :: xs from hcase]
      simp
  rw [hev]
  show (_, ({ stateB a b ss done with
    skippedKeys := _ } : SessionState)) = _
  unfold stateB
  rw [hb]

theorem stepB_fresh {done : List Nat} {j : Nat} (_hj : ¬ j ∈ done)
    (hge : bnd done ≤ j) (p : String) :
    decryptEvent (stateB a b ss done) (evtA a b ss j p) =
      (some ⟨pA a, p⟩, stateB a b ss (done ++ [j])) := by
  have hb : bnd (done ++ [j]) = j + 1 := by
    rw [bnd_append_single]
    omega
  unfold decryptEvent
  rw [show (evtA a b ss j p).pubkey = pA a from rfl,
      show (evtA a b ss j p).header.number = j from rfl,
      lookup_stateB_high a b ss hge]
  rw [show (stateB a b ss done).theirCurrentNostrPublicKey = some (pA a) from rfl]
  rw [if_pos rfl]
  have hadd : addSkipped (stateB a b ss done).skippedKeys (pA a)
      ((List.range' (bnd done) (j - bnd done)).map (fun i => (i, mkAt a b ss i))) =
      if skEntry a b ss (done ++ [j]) = [] then []
      else [(pA a, skEntry a b ss (done ++ [j]))] := by
    rw [skEntry_append_high a b ss hge]
    show addSkipped (if skEntry a b ss done = [] then []
      else [(pA a, skEntry a b ss done)]) (pA a) _ = _
    rcases hgap : (List.range' (bnd done) (j - bnd done)).map
        (fun i => (i, mkAt a b ss i)) with _ | ⟨x, xs⟩
    · rw [show addSkipped (if skEntry a b ss done = [] then []
        else [(pA a, skEntry a b ss done)]) (pA a) [] =
        (if skEntry a b ss done = [] then []
          else [(pA a, skEntry a b ss done)]) from rfl]
      rw [List.append_nil]
    · have hpairs : ¬ ((x :: xs).isEmpty = true) := by simp
      rcases hsk : skEntry a b ss done with _ | ⟨y, ys⟩
      · rw [if_pos rfl]
        unfold addSkipped
        rw [if_neg hpairs]
        simp
      · rw [if_neg (by simp [hsk])]
        unfold addSkipped
        rw [if_neg hpairs]
        have hfind : (List.find? (fun e => e.1 = pA a)
            [(pA a, y :: ys)]).isSome = true := by simp [List.find?_cons]
        rw [if_pos hfind]
        simp [hsk]
  have hcur : tryCurrentChain (stateB a b ss done) (evtA a b ss j p) =
      some (⟨pA a, p⟩, stateB a b ss (done ++ [j])) := by
    unfold tryCurrentChain
    rw [show (stateB a b ss done).receivingChainKey =
        some (chainAt a b ss (bnd done)) from rfl]
    dsimp only
    rw [show (evtA a b ss j p).header.number = j from rfl,
        show (stateB a b ss done).receivingChainMessageNumber = bnd done from rfl,
        if_neg (by omega : ¬ j < bnd done),
        skipChain_chainAt, show bnd done + (j - bnd done) = j by omega]
    dsimp only
    have hdec : decryptC (evtA a b ss j p).content
        (chainStep (chainAt a b ss j)).2 = some ⟨pA a, p⟩ := by
      show decryptC ⟨mkAt a b ss j, ⟨pA a, p⟩⟩ _ = _
      simp [decryptC, mkAt]
    rw [hdec]
    dsimp only
    rw [show (evtA a b ss j p).pubkey = pA a from rfl,
        show (evtA a b ss j p).header.nextPublicKey = pubOf (Priv.eph true 0) from rfl,
        hadd,
        show (chainStep (chainAt a b ss j)).1 = chainAt a b ss (j + 1) from rfl]
    show some (_, ({ stateB a b ss done with
      receivingChainKey := _, receivingChainMessageNumber := _,
      theirNextNostrPublicKey := _, skippedKeys := _ } : SessionState)) = _
    unfold stateB
    rw [hb]
    rw [if_neg (by omega : ¬ j + 1 = 0)]
  rw [hcur]

theorem stepB_any {done : List Nat} {j : Nat} (hj : ¬ j ∈ done) (p : String) :
    decryptEvent (stateB a b ss done) (evtA a b ss j p) =
      (some ⟨pA a, p⟩, stateB a b ss (done ++ [j])) := by
  rcases lt_or_ge j (bnd done) with h | h
  · exact stepB_skipped a b ss hj h p
  · exact stepB_fresh a b ss hj h p

theorem processB (es : List MessageEvent) (done : List Nat)
    (hform : ∀ e ∈ es, e = evtA a b ss e.header.number e.content.plain.content)
    (hnd : ∀ e ∈ es, ¬ e.header.number ∈ done)
    (hdup : (es.map (fun e => e.header.number)).Nodup) :
    processMany (stateB a b ss done) es =
      (es.map (fun e => some e.content.plain),
        stateB a b ss (done ++ es.map (fun e => e.header.number))) := by
  induction es generalizing done with
  | nil => simp [processMany]
  | cons e es ih =>
    have he := hform e (List.mem_cons_self e es)
    have hpl : e.content.plain = ⟨pA a, e.content.plain.content⟩ := by
      conv_lhs => rw [he]
      rfl
    have hstep : decryptEvent (stateB a b ss done) e =
        (some ⟨pA a, e.content.plain.content⟩,
          stateB a b ss (done ++ [e.header.number])) := by
      conv_lhs => rw [he]
      rw [stepB_any a b ss (hnd e (List.mem_cons_self e es)) e.content.plain.content]
    have hdup2 : (∀ x ∈ es, ¬ x.header.number = e.header.number) ∧
        (es.map (fun y => y.header.number)).Nodup := by simpa using hdup
    unfold processMany
    rw [hstep]
    dsimp only
    rw [ih (done ++ [e.header.number])
      (fun x hx => hform x (List.mem_cons_of_mem e hx))
      (fun x hx => by
        rw [List.mem_append]
        push_neg
        refine ⟨hnd x (List.mem_cons_of_mem e hx), ?_⟩
        rw [List.mem_singleton]
        exact hdup2.1 x hx)
      hdup2.2]
    rw [List.map_cons, List.append_assoc, ← hpl]
    rfl

set_option maxRecDepth 8000

theorem sendMany_initA (msgs : List String) :
    (sendMany (initA a b ss) msgs).1 =
      (msgs.enumFrom 0).map (fun ip => evtA a b ss ip.1 ip.2) := by
  rw [← stateA_zero, sendMany_stateA]

theorem perm_events_char {msgs : List String} {es : List MessageEvent}
    (hperm : es.Perm (sendMany (initA a b ss) msgs).1) :
    ∀ e ∈ es, e.header.number < msgs.length ∧
      msgs[e.header.number]? = some e.content.plain.content ∧
      e = evtA a b ss e.header.number e.content.plain.content := by
  intro e he
  have hm : e ∈ (msgs.enumFrom 0).map (fun ip => evtA a b ss ip.1 ip.2) := by
    rw [← sendMany_initA a b ss msgs]
    exact hperm.mem_iff.mp he
  rcases List.mem_map.mp hm with ⟨⟨i, p⟩, hip, rfl⟩
  have h3 := List.mem_enumFrom hip
  have hi : i < msgs.length := by
    have := h3.2.1
    omega
  have hp : p = msgs[i - 0] := h3.2.2
  refine ⟨hi, ?_, rfl⟩
  show msgs[i]? = some p
  rw [List.getElem?_eq_some]
  exact ⟨hi, by simpa using hp.symm⟩

theorem perm_events_nodup {msgs : List String} {es : List MessageEvent}
    (hperm : es.Perm (sendMany (initA a b ss) msgs).1) :
    (es.map (fun e => e.header.number)).Nodup := by
  have h1 := hperm.map (fun e => e.header.number)
  rw [sendMany_initA a b ss msgs, List.map_map] at h1
  have h2 : ((fun (e : MessageEvent) => e.header.number) ∘
      fun ip : Nat × String => evtA a b ss ip.1 ip.2) = Prod.fst := rfl
  rw [h2, List.enumFrom_map_fst] at h1
  refine h1.nodup_iff.mpr ?_
  rw [← List.range_eq_range']
  exact List.nodup_range _

theorem missing_single (n : Nat) : missing [n] = List.range n := by
  unfold missing
  have hb : bnd [n] = n + 1 := by
    rw [bnd_cons]
    exact max_eq_left (Nat.zero_le _)
  rw [hb, List.range_succ, List.filter_append]
  have h1 : List.filter (fun i => decide (¬ i ∈ [n])) (List.range n) =
      List.range n := by
    refine List.filter_eq_self.mpr ?_
    intro i hi
    rw [List.mem_range] at hi
    simp
    omega
  have h2 : List.filter (fun i => decide (¬ i ∈ [n])) [n] = [] := by simp
  rw [h1, h2, List.append_nil]

theorem lookupSkipped_eq_none {sk : List (Pub × List (Nat × Bytes))} {p : Pub}
    {n : Nat} (h : ∀ kv ∈ sk, kv.1 ≠ p) : lookupSkipped sk p n = none := by
  unfold lookupSkipped
  rw [List.find?_eq_none.mpr (fun x hx => by simpa using h x hx)]

theorem decryptEvent_none_state (s : SessionState) (e : MessageEvent)
    (h : (decryptEvent s e).1 = none) : (decryptEvent s e).2 = s := by
  unfold decryptEvent at h ⊢
  rcases hl : lookupSkipped s.skippedKeys e.pubkey e.header.number with _ | mk <;>
    simp only [hl] at h ⊢
  case some =>
    rcases hd : decryptC e.content mk with _ | i <;> simp only [hd] at h ⊢
    exact absurd h Option.noConfusion
  case none =>
    by_cases h1 : s.theirCurrentNostrPublicKey = some e.pubkey
    · simp only [if_pos h1] at h ⊢
      rcases ht : tryCurrentChain s e with _ | r <;> simp only [ht] at h ⊢
      exact absurd h Option.noConfusion
    · simp only [if_neg h1] at h ⊢
      by_cases h2 : s.theirNextNostrPublicKey = e.pubkey
      · simp only [if_pos h2] at h ⊢
        rcases ht : tryRatchet s e with _ | r <;> simp only [ht] at h ⊢
        exact absurd h Option.noConfusion
      · simp only [if_neg h2] at h ⊢

/-- C1: for any two sessions initialised from the same shared secret with
mirrored `isInitiator` flags, each other's identity public keys and their
own identity private keys, and for every ordered sequence of sends and
receives between them, every inner event produced by `decryptEvent` has
content equal to the exact plaintext payload passed to `send`. -/
theorem C1_decrypted_content_is_sent_payload (a b : Nat) (ss : Bytes)
    (acts : List Act) :
    ∀ o ∈ runC (initConfig a b ss) acts, ∀ inner, o.1 = some inner →
      inner.content = o.2 :=
  runC_good
    ⟨fun ep hep => absurd hep (List.not_mem_nil ep),
     fun ep hep => absurd hep (List.not_mem_nil ep)⟩ acts

theorem C1_witness :
    runC (initConfig 0 1 (Bytes.raw 0))
        [Act.asend "hello bob", Act.brecv 0, Act.bsend "hi alice", Act.arecv 0] =
      [(some ⟨pA 0, "hello bob"⟩, "hello bob"),
       (some ⟨pA 1, "hi alice"⟩, "hi alice")] ∧
    (⟨pA 1, "hi alice"⟩ : InnerEvent).content = "hi alice" := by
  have hrun : runC (initConfig 0 1 (Bytes.raw 0))
      [Act.asend "hello bob", Act.brecv 0, Act.bsend "hi alice", Act.arecv 0] =
      [(some ⟨pA 0, "hello bob"⟩, "hello bob"),
       (some ⟨pA 1, "hi alice"⟩, "hi alice")] := rfl
  refine ⟨hrun, ?_⟩
  refine C1_decrypted_content_is_sent_payload 0 1 (Bytes.raw 0)
    [Act.asend "hello bob", Act.brecv 0, Act.bsend "hi alice", Act.arecv 0]
    (some ⟨pA 1, "hi alice"⟩, "hi alice") ?_ ⟨pA 1, "hi alice"⟩ rfl
  rw [hrun]
  exact List.mem_cons_of_mem _ (List.mem_singleton.mpr rfl)

/-- C2: for any finite sequence of messages sent by A to B and any
permutation of that sequence, when B calls `decryptEvent` on the permuted
stream, the results are the original payloads in the permuted delivery
order, and every one of them decrypts successfully. -/
theorem C2_permuted_stream_decrypts_in_delivery_order (a b : Nat) (ss : Bytes)
    (msgs : List String) (es : List MessageEvent)
    (hperm : es.Perm (sendMany (initA a b ss) msgs).1) :
    (processMany (initB a b ss) es).1 =
      es.map (fun e => (msgs[e.header.number]?).map (fun p => InnerEvent.mk (pA a) p)) ∧
    ∀ e ∈ es, e.header.number < msgs.length := by
  have hchar := perm_events_char a b ss hperm
  have hdup := perm_events_nodup a b ss hperm
  have hproc := processB a b ss es []
    (fun e he => (hchar e he).2.2)
    (fun e _ => List.not_mem_nil e.header.number) hdup
  rw [stateB_nil] at hproc
  constructor
  · have h1 : (processMany (initB a b ss) es).1 =
        es.map (fun e => some e.content.plain) := by rw [hproc]
    rw [h1]
    refine List.map_congr_left ?_
    intro e he
    rw [(hchar e he).2.1]
    have hpl : e.content.plain = ⟨pA a, e.content.plain.content⟩ := by
      conv_lhs => rw [(hchar e he).2.2]
      rfl
    rw [hpl]
    rfl
  · exact fun e he => (hchar e he).1

theorem C2_witness :
    (processMany (initB 0 1 (Bytes.raw 0))
        [evtA 0 1 (Bytes.raw 0) 2 "three", evtA 0 1 (Bytes.raw 0) 0 "one",
         evtA 0 1 (Bytes.raw 0) 1 "two"]).1 =
      [some ⟨pA 0, "three"⟩, some ⟨pA 0, "one"⟩, some ⟨pA 0, "two"⟩] := by
  have h := C2_permuted_stream_decrypts_in_delivery_order 0 1 (Bytes.raw 0)
    ["one", "two", "three"]
    [evtA 0 1 (Bytes.raw 0) 2 "three", evtA 0 1 (Bytes.raw 0) 0 "one",
     evtA 0 1 (Bytes.raw 0) 1 "two"]
    (by rw [sendMany_initA]; decide)
  rw [h.1]
  rfl

/-- C3: an inbound event whose `pubkey` is neither `theirCurrent`, nor
`theirNext`, nor a key of the `skippedKeys` cache makes `decryptEvent`
return null with the session state bit-identical; and whenever decryption
fails (`decryptEvent` returns null) the state is not advanced. -/
theorem C3_no_match_returns_null_state_untouched :
    (∀ (s : SessionState) (e : MessageEvent),
        s.theirCurrentNostrPublicKey ≠ some e.pubkey →
        s.theirNextNostrPublicKey ≠ e.pubkey →
        (∀ kv ∈ s.skippedKeys, kv.1 ≠ e.pubkey) →
        decryptEvent s e = (none, s)) ∧
    (∀ (s : SessionState) (e : MessageEvent),
        (decryptEvent s e).1 = none → (decryptEvent s e).2 = s) := by
  constructor
  · intro s e h1 h2 h3
    unfold decryptEvent
    rw [lookupSkipped_eq_none h3]
    dsimp only
    rw [if_neg h1, if_neg h2]
  · exact decryptEvent_none_state

theorem C3_witness :
    decryptEvent (initB 0 1 (Bytes.raw 0))
        ⟨pA 5, ⟨0, 0, pA 5⟩, ⟨Bytes.raw 9, ⟨pA 5, "x"⟩⟩⟩ =
      (none, initB 0 1 (Bytes.raw 0)) ∧
    (decryptEvent (initB 0 1 (Bytes.raw 0))
        ⟨pA 5, ⟨0, 0, pA 5⟩, ⟨Bytes.raw 9, ⟨pA 5, "x"⟩⟩⟩).2 =
      initB 0 1 (Bytes.raw 0) := by
  constructor
  · exact C3_no_match_returns_null_state_untouched.1 _ _
      (by decide) (by decide) (fun kv hkv => absurd hkv (List.not_mem_nil kv))
  · exact C3_no_match_returns_null_state_untouched.2 _ _ (by decide)

/-- C4: the claim asserts that each `skippedKeys` entry holds at most
`MAX_SKIP = 1000` message keys, that on overflow the oldest entry is
evicted, and that attempts beyond the bound return null.  The spec's own
design notes record that the source does not enforce `MAX_SKIP`; the
modelled code accordingly derives without bound: delivering message number
1001 first makes `decryptEvent` succeed and cache 1001 skipped keys in a
single entry, exceeding `MAX_SKIP`, with no eviction and no null. -/
theorem C4_skipped_cache_exceeds_MAX_SKIP :
    ∃ e s2,
      (sendMany (initA 0 1 (Bytes.raw 0)) (List.replicate 1002 "m")).1[1001]? =
        some e ∧
      decryptEvent (initB 0 1 (Bytes.raw 0)) e = (some ⟨pA 0, "m"⟩, s2) ∧
      s2.skippedKeys = [(pA 0, skEntry 0 1 (Bytes.raw 0) [1001])] ∧
      (skEntry 0 1 (Bytes.raw 0) [1001]).length = 1001 ∧
      MAX_SKIP < (skEntry 0 1 (Bytes.raw 0) [1001]).length := by
  have hlen : (skEntry 0 1 (Bytes.raw 0) [1001]).length = 1001 := by
    unfold skEntry
    rw [List.length_map, missing_single, List.length_range]
  have hne : skEntry 0 1 (Bytes.raw 0) [1001] ≠ [] := by
    intro hcontra
    rw [hcontra] at hlen
    simp at hlen
  refine ⟨evtA 0 1 (Bytes.raw 0) 1001 "m", stateB 0 1 (Bytes.raw 0) [1001],
    ?_, ?_, ?_, hlen, ?_⟩
  · rw [sendMany_initA, List.getElem?_map, List.getElem?_enumFrom,
        List.getElem?_replicate, if_pos (by omega : 1001 < 1002)]
    rfl
  · rw [← stateB_nil 0 1 (Bytes.raw 0)]
    exact stepB_any 0 1 (Bytes.raw 0) (List.not_mem_nil 1001) "m"
  · show (if skEntry 0 1 (Bytes.raw 0) [1001] = [] then []
      else [(pA 0, skEntry 0 1 (Bytes.raw 0) [1001])]) = _
    rw [if_neg hne]
  · rw [hlen]
    unfold MAX_SKIP
    omega

end SingleChain

end DR

namespace InviteCodec

/-- A computable total preorder on strings (byte-wise on code points), used
only to normalise the two ends of a Diffie-Hellman pair. -/
def strLeB : List Char → List Char → Bool
  | [], _ => true
  | _ :: _, [] => false
  | a :: as, b :: bs =>
    if a.val < b.val then true
    else if b.val < a.val then false
    else strLeB as bs

/-- The lexicographically smaller of two strings. -/
def minS (x y : String) : String := if strLeB x.data y.data then x else y

/-- The lexicographically larger of two strings. -/
def maxS (x y : String) : String := if strLeB x.data y.data then y else x

/-- Symbolic key material of the invite codec: an ECDH conversation key
(normalised unordered pair of the two key tags) or a raw shared-secret
key (`hexToBytes(sharedSecret)`). -/
inductive IKey where
  | convK : String → String → IKey
  | secretK : String → IKey
  deriving DecidableEq, Repr

/-- Symbolic data handled by the codec: a raw string, the JSON payload
`{sessionKey, deviceId?}`, a serialised inner event
`{pubkey, content, created_at}`, or a NIP-44 ciphertext. -/
inductive IData where
  | jstr : String → IData
  | jpayload : String → Option String → IData
  | jinner : String → IData → Nat → IData
  | jcipher : IKey → IData → IData
  deriving DecidableEq, Repr

/-- Symbolic `getPublicKey` (injective; secrecy is not modelled). -/
def getPublicKey (sk : String) : String := sk

/-- Symbolic `getConversationKey`: symmetric in the two parties. -/
def getConversationKey (sk : String) (pk : String) : IKey :=
  IKey.convK (minS sk pk) (maxS sk pk)

/-- Symbolic `nip44.encrypt`. -/
def nip44encrypt (d : IData) (k : IKey) : IData := IData.jcipher k d

/-- Symbolic `nip44.decrypt`: succeeds exactly on a ciphertext sealed under
the same key. -/
def nip44decrypt (c : IData) (k : IKey) : Option IData :=
  match c with
  | IData.jcipher k2 d => if k2 = k then some d else none
  | _ => none

/-- `INVITE_RESPONSE_KIND` of `types.ts`; deployment-configured constant
whose numeric value is immaterial to the claims. -/
def INVITE_RESPONSE_KIND : Nat := 1060

/-- A (signed) Nostr event as handled by the invite codec; the Schnorr
signature produced by `finalizeEvent` is the assumed-correct collaborator
and is not carried. -/
structure IEvent where
  kind : Nat
  pubkey : String
  content : IData
  created_at : Nat
  tags : List (List String)
  deriving DecidableEq, Repr

/-- Parameters of `encryptInviteResponse` (from `inviteUtils.ts`), plus the
external randomness (`generateSecretKey` for the one-shot sender key) and
the two clock reads (`Date.now` and the jittered `randomNow`), passed
explicitly. -/
structure EncryptInviteResponseParams where
  inviteeSessionPublicKey : String
  inviteePublicKey : String
  inviteePrivateKey : String
  inviterPublicKey : String
  inviterEphemeralPublicKey : String
  sharedSecret : String
  deviceId : Option String
  randomSenderKey : String
  now : Nat
  jitteredNow : Nat
  deriving DecidableEq, Repr

/-- `encryptInviteResponse` of `inviteUtils.ts`: payload encrypted with
`DH(invitee, inviter)`, wrapped in an inner event encrypted with the shared
secret, wrapped in an envelope from a one-shot sender key encrypted with
`DH(randomSenderKey, inviterEphemeralPublicKey)` and tagged
`["p", inviterEphemeralPublicKey]`. -/
def encryptInviteResponse (p : EncryptInviteResponseParams) : IEvent :=
  let payload := IData.jpayload p.inviteeSessionPublicKey p.deviceId
  let dhEncrypted := nip44encrypt payload
    (getConversationKey p.inviteePrivateKey p.inviterPublicKey)
  let innerEvent := IData.jinner p.inviteePublicKey
    (nip44encrypt dhEncrypted (IKey.secretK p.sharedSecret)) p.now
  { kind := INVITE_RESPONSE_KIND
    pubkey := getPublicKey p.randomSenderKey
    content := nip44encrypt innerEvent
      (getConversationKey p.randomSenderKey p.inviterEphemeralPublicKey)
    created_at := p.jitteredNow
    tags := [["p", p.inviterEphemeralPublicKey]] }

/-- Result of `decryptInviteResponse`. -/
structure DecryptInviteResponseResult where
  inviteePublicKey : String
  sessionKey : String
  deviceId : Option String
  deriving DecidableEq, Repr

/-- `decryptInviteResponse` of `inviteUtils.ts`: peel the envelope with
`DH(inviterEphemeralPriv, event.pubkey)`, parse the inner event, peel its
content with the shared secret, peel the payload with
`DH(inviterPriv, inviteePub)`, and parse the JSON payload, falling back to
treating a raw string as the session key; any failure throws (None). -/
def decryptInviteResponse (event : IEvent) (inviterEphemeralPrivateKey : String)
    (inviterPrivateKey : String) (sharedSecret : String) :
    Option DecryptInviteResponseResult :=
  match nip44decrypt event.content
      (getConversationKey inviterEphemeralPrivateKey event.pubkey) with
  | none => none
  | some d =>
    match d with
    | IData.jinner inviteePublicKey c _ =>
      match nip44decrypt c (IKey.secretK sharedSecret) with
      | none => none
      | some dh =>
        match nip44decrypt dh
            (getConversationKey inviterPrivateKey inviteePublicKey) with
        | none => none
        | some payload =>
          match payload with
          | IData.jpayload sk dev => some ⟨inviteePublicKey, sk, dev⟩
          | IData.jstr s => some ⟨inviteePublicKey, s, none⟩
          | _ => none
    | _ => none

/-- The `Invite` class of `Invite.ts` (data fields). -/
structure Invite where
  inviterEphemeralPublicKey : String
  sharedSecret : String
  inviter : String
  inviterEphemeralPrivateKey : Option String
  deviceId : Option String
  maxUses : Option Nat
  usedBy : List String
  createdAt : Nat
  deriving DecidableEq, Repr

/-- The guard `this.maxUses && this.usedBy.length >= this.maxUses` of
`Invite.listen` (JavaScript truthiness: `maxUses = 0` is falsy). -/
def maxUsesReached (inv : Invite) : Bool :=
  match inv.maxUses with
  | some m => decide (m ≠ 0) && decide (m ≤ inv.usedBy.length)
  | none => false

/-- The body of the subscription callback registered by `Invite.listen`
(key-based decryptor path): once `usedBy` is full the event is silently
ignored; otherwise the response is decrypted (failures silently swallowed),
the invitee identity is recorded in `usedBy`, and `onSession` is invoked —
modelled by returning `some (inviteeIdentity, inviteeSessionPublicKey,
deviceId)` together with the updated invite. -/
def listenHandler (inv : Invite) (decryptor : String) (event : IEvent) :
    Option (String × String × Option String) × Invite :=
  match inv.inviterEphemeralPrivateKey with
  | none => (none, inv)
  | some ephPriv =>
    if maxUsesReached inv then (none, inv)
    else
      match decryptInviteResponse event ephPriv decryptor inv.sharedSecret with
      | none => (none, inv)
      | some r =>
        (some (r.inviteePublicKey, r.sessionKey, r.deviceId),
          { inv with usedBy := inv.usedBy ++ [r.inviteePublicKey] })

/-- Feed a stream of invite-response events to the listen callback. -/
def listenMany (inv : Invite) (decryptor : String) :
    List IEvent → List (Option (String × String × Option String)) × Invite
  | [] => ([], inv)
  | e :: es =>
    let r := listenHandler inv decryptor e
    let rest := listenMany r.2 decryptor es
    (r.1 :: rest.1, rest.2)

theorem strLeB_total (x y : List Char) : strLeB x y = true ∨ strLeB y x = true := by
  induction x generalizing y with
  | nil => left; rfl
  | cons a as ih =>
    cases y with
    | nil => right; rfl
    | cons b bs =>
      by_cases h1 : a.val < b.val
      · left
        simp [strLeB, h1]
      · by_cases h2 : b.val < a.val
        · right
          simp [strLeB, h2]
        · rcases ih bs with h | h
          · left
            simp [strLeB, h1, h2, h]
          · right
            simp [strLeB, h1, h2, h]

theorem strLeB_antisymm {x y : List Char} (h1 : strLeB x y = true)
    (h2 : strLeB y x = true) : x = y := by
  induction x generalizing y with
  | nil =>
    cases y with
    | nil => rfl
    | cons b bs => exact absurd h2 (by simp [strLeB])
  | cons a as ih =>
    cases y with
    | nil => exact absurd h1 (by simp [strLeB])
    | cons b bs =>
      by_cases hab : a.val < b.val
      · have hba : ¬ b.val < a.val := fun hc =>
          absurd (UInt32.le_antisymm (UInt32.not_lt.mp (fun hd =>
            UInt32.lt_irrefl a.val (UInt32.lt_trans hd hc)))
            (UInt32.not_lt.mp (fun hd =>
            UInt32.lt_irrefl b.val (UInt32.lt_trans hd hab))) ▸ hab)
            (UInt32.lt_irrefl a.val)
        simp [strLeB, hab, hba] at h2
      · by_cases hba : b.val < a.val
        · simp [strLeB, hab, hba] at h1
        · have hv : a.val = b.val :=
            UInt32.le_antisymm (UInt32.not_lt.mp hba) (UInt32.not_lt.mp hab)
          have hc : a = b := Char.ext hv
          subst hc
          simp [strLeB, hab, hba] at h1 h2
          rw [ih h1 h2]

theorem getConversationKey_comm (x y : String) :
    getConversationKey x y = getConversationKey y x := by
  unfold getConversationKey minS maxS
  by_cases h1 : strLeB x.data y.data = true <;>
    by_cases h2 : strLeB y.data x.data = true
  · rw [String.ext (strLeB_antisymm h1 h2)]
  · rw [if_pos h1, if_pos h1, if_neg h2, if_neg h2]
  · rw [if_neg h1, if_neg h1, if_pos h2, if_pos h2]
  · rcases strLeB_total x.data y.data with h | h
    · exact absurd h h1
    · exact absurd h h2

/-- C5: for every invitee session public key, invitee identity keypair,
inviter identity public key, inviter ephemeral keypair, shared secret and
optional deviceId, applying `decryptInviteResponse` (with the inviter's
ephemeral private key, inviter identity private key, and the same shared
secret) to the event produced by `encryptInviteResponse` returns exactly
the original `inviteePublicKey`, `sessionKey`, and `deviceId`. -/
theorem C5_invite_response_roundtrip (inviteeSessionPublicKey : String)
    (inviteePrivateKey inviterPrivateKey inviterEphemeralPrivateKey : String)
    (randomSenderKey sharedSecret : String) (deviceId : Option String)
    (now jitteredNow : Nat) :
    decryptInviteResponse
      (encryptInviteResponse
        { inviteeSessionPublicKey := inviteeSessionPublicKey
          inviteePublicKey := getPublicKey inviteePrivateKey
          inviteePrivateKey := inviteePrivateKey
          inviterPublicKey := getPublicKey inviterPrivateKey
          inviterEphemeralPublicKey := getPublicKey inviterEphemeralPrivateKey
          sharedSecret := sharedSecret
          deviceId := deviceId
          randomSenderKey := randomSenderKey
          now := now
          jitteredNow := jitteredNow })
      inviterEphemeralPrivateKey inviterPrivateKey sharedSecret =
    some ⟨getPublicKey inviteePrivateKey, inviteeSessionPublicKey, deviceId⟩ := by
  unfold decryptInviteResponse encryptInviteResponse
  dsimp only
  rw [show getConversationKey inviterEphemeralPrivateKey
        (getPublicKey randomSenderKey) =
      getConversationKey randomSenderKey
        (getPublicKey inviterEphemeralPrivateKey) from
    getConversationKey_comm ..]
  rw [show nip44decrypt
      (nip44encrypt (IData.jinner (getPublicKey inviteePrivateKey)
        (nip44encrypt (nip44encrypt
            (IData.jpayload inviteeSessionPublicKey deviceId)
            (getConversationKey inviteePrivateKey
              (getPublicKey inviterPrivateKey)))
          (IKey.secretK sharedSecret)) now)
        (getConversationKey randomSenderKey
          (getPublicKey inviterEphemeralPrivateKey)))
      (getConversationKey randomSenderKey
        (getPublicKey inviterEphemeralPrivateKey)) = some _ from if_pos rfl]
  dsimp only
  rw [show nip44decrypt (nip44encrypt (nip44encrypt
        (IData.jpayload inviteeSessionPublicKey deviceId)
        (getConversationKey inviteePrivateKey (getPublicKey inviterPrivateKey)))
      (IKey.secretK sharedSecret)) (IKey.secretK sharedSecret) =
      some _ from if_pos rfl]
  dsimp only
  rw [show getConversationKey inviterPrivateKey (getPublicKey inviteePrivateKey) =
      getConversationKey inviteePrivateKey (getPublicKey inviterPrivateKey) from
    getConversationKey_comm ..]
  rw [show nip44decrypt (nip44encrypt
        (IData.jpayload inviteeSessionPublicKey deviceId)
        (getConversationKey inviteePrivateKey (getPublicKey inviterPrivateKey)))
      (getConversationKey inviteePrivateKey (getPublicKey inviterPrivateKey)) =
      some _ from if_pos rfl]

/-- C7 counterexample: the claim states that for every `Invite` with
`maxUses` set, once `usedBy` has reached `maxUses` entries the listen
subscription handler never invokes `onSession` for any further
invite-response event.  With `maxUses = 0` — a set value — the empty
`usedBy` has already reached `maxUses` entries, yet the JavaScript guard
`this.maxUses && this.usedBy.length >= this.maxUses` is falsy for `0`, so
the handler decrypts a valid response and invokes `onSession` anyway. -/
theorem C7_counterexample_maxUses_zero :
    (Invite.mk (getPublicKey "e") "s" (getPublicKey "i") (some "e") none
        (some 0) [] 0).maxUses = some 0 ∧
    ((Invite.mk (getPublicKey "e") "s" (getPublicKey "i") (some "e") none
        (some 0) [] 0).usedBy.length ≥ 0) ∧
    (listenHandler
        (Invite.mk (getPublicKey "e") "s" (getPublicKey "i") (some "e") none
          (some 0) [] 0) "i"
        (encryptInviteResponse
          ⟨"k", getPublicKey "v", "v", getPublicKey "i", getPublicKey "e",
            "s", none, "r", 5, 3⟩)).1 =
      some (getPublicKey "v", "k", none) := by
  refine ⟨rfl, Nat.zero_le _, ?_⟩
  rfl

/-- C7 (amended): for every `Invite` whose `maxUses` is set to a positive
`m`, once `usedBy` has at least `m` entries, the listen subscription
handler never invokes `onSession` for any further invite-response events:
every event is silently ignored and the invite (including `usedBy`) is
unchanged. -/
theorem C7_full_invite_ignores_further_responses (inv : Invite) (m : Nat)
    (hm : inv.maxUses = some m) (h1 : 1 ≤ m) (h2 : m ≤ inv.usedBy.length)
    (decryptor : String) (events : List IEvent) :
    listenMany inv decryptor events = (events.map (fun _ => none), inv) := by
  have hg : maxUsesReached inv = true := by
    unfold maxUsesReached
    rw [hm]
    simp only [Bool.and_eq_true, decide_eq_true_eq]
    exact ⟨by omega, h2⟩
  have hstep : ∀ e, listenHandler inv decryptor e = (none, inv) := by
    intro e
    unfold listenHandler
    cases hk : inv.inviterEphemeralPrivateKey with
    | none => rfl
    | some k =>
      dsimp only
      rw [if_pos hg]
  induction events with
  | nil => rfl
  | cons e es ih =>
    unfold listenMany
    rw [hstep e]
    dsimp only
    rw [ih]
    rfl

theorem C7_witness :
    listenMany
      (Invite.mk (getPublicKey "e") "s" (getPublicKey "i") (some "e") none
        (some 1) [getPublicKey "u"] 0) "i"
      [⟨INVITE_RESPONSE_KIND, "z", IData.jstr "junk", 0, []⟩,
       ⟨INVITE_RESPONSE_KIND, "w", IData.jstr "junk2", 0, []⟩] =
    ([none, none],
      Invite.mk (getPublicKey "e") "s" (getPublicKey "i") (some "e") none
        (some 1) [getPublicKey "u"] 0) :=
  C7_full_invite_ignores_further_responses _ 1 rfl (by omega) (by decide) "i" _

end InviteCodec

namespace IL

/-- A device entry in the invite list (`InviteList.ts`); the optional
`ephemeralPrivateKey` is not part of any merged or serialised observable
and is omitted. -/
structure DeviceEntry where
  ephemeralPublicKey : String
  sharedSecret : String
  deviceId : String
  label : String
  deriving DecidableEq, Repr

/-- A removed device entry with timestamp. -/
structure RemovedEntry where
  deviceId : String
  timestamp : Nat
  deriving DecidableEq, Repr

/-- The `InviteList` class.  `devices` is the insertion-ordered `Map` keyed
by `deviceId`; in the source the map key always equals the entry's
`deviceId`, so the entry list carries the whole map. -/
structure InviteList where
  owner : String
  devices : List DeviceEntry
  removed : List RemovedEntry
  mainDeviceId : Option String
  version : Nat
  createdAt : Nat
  deriving DecidableEq, Repr

/-- `INVITE_LIST_KIND = 10078`. -/
def INVITE_LIST_KIND : Nat := 10078

/-- `InviteList.create(owner)`; the private constructor stamps
`Math.floor(Date.now() / 1000)`, passed here explicitly. -/
def create (owner : String) (now : Nat) : InviteList :=
  ⟨owner, [], [], none, 1, now⟩

/-- `Map.set` on the devices map: replace in place, or append. -/
def setDevice (ds : List DeviceEntry) (d : DeviceEntry) : List DeviceEntry :=
  if ds.any (fun x => x.deviceId = d.deviceId) then
    ds.map (fun x => if x.deviceId = d.deviceId then d else x)
  else ds ++ [d]

/-- A signed Nostr event as consumed by `InviteList.fromEvent`. -/
structure LEvent where
  pubkey : String
  created_at : Nat
  kind : Nat
  tags : List (List String)
  content : String
  deriving DecidableEq, Repr

/-- `InviteList.fromEvent` (the Schnorr signature check `verifyEvent` is
the assumed-correct external collaborator and is elided): parse `device`,
`removed`, `main-device` and `version` tags in order; malformed tags are
silently dropped; numeric tag fields (`Number(...)`) are modelled by
`String.toNat?` with default `0`. -/
def fromEvent (e : LEvent) : InviteList :=
  e.tags.foldl
    (fun list tag =>
      match tag with
      | "device" :: eph :: ssec :: did :: lab :: _ =>
        if eph ≠ "" ∧ ssec ≠ "" ∧ did ≠ "" ∧ lab ≠ "" then
          { list with devices := setDevice list.devices ⟨eph, ssec, did, lab⟩ }
        else list
      | "removed" :: did :: ts :: _ =>
        if did ≠ "" ∧ ts ≠ "" then
          { list with removed := list.removed ++ [⟨did, (ts.toNat?).getD 0⟩] }
        else list
      | "main-device" :: did :: _ =>
        if did ≠ "" then { list with mainDeviceId := some did } else list
      | "version" :: v :: _ =>
        if v ≠ "" then { list with version := (v.toNat?).getD 0 } else list
      | _ => list)
    ⟨e.pubkey, [], [], none, 1, e.created_at⟩

/-- `InviteList.addDevice`: a no-op for any id present in `removed`;
otherwise `Map.set`. -/
def addDevice (l : InviteList) (d : DeviceEntry) : InviteList :=
  if l.removed.any (fun r => r.deviceId = d.deviceId) then l
  else { l with devices := setDevice l.devices d }

/-- `InviteList.removeDevice`: a no-op for an id not in `devices`;
otherwise the entry is deleted from `devices` and pushed onto `removed`
with the `Math.floor(now_seconds)` timestamp, passed here explicitly. -/
def removeDevice (l : InviteList) (deviceId : String) (now : Nat) : InviteList :=
  if l.devices.any (fun d => d.deviceId = deviceId) then
    { l with
        devices := l.devices.filter (fun d => ¬ d.deviceId = deviceId)
        removed := l.removed ++ [⟨deviceId, now⟩] }
  else l

/-- One `Map.set`-style step of the `removedMap` fold in
`InviteList.merge`: keep the entry with the larger timestamp, replacing in
place. -/
def upsertRemoved (m : List RemovedEntry) (r : RemovedEntry) :
    List RemovedEntry :=
  match m.find? (fun x => x.deviceId = r.deviceId) with
  | none => m ++ [r]
  | some x =>
    if x.timestamp < r.timestamp then
      m.map (fun y => if y.deviceId = r.deviceId then r else y)
    else m

/-- One `Map.set`-style step of the `allDevices` fold in
`InviteList.merge`: the stored entry is tagged with the `createdAt` of the
list it came from and replaced only by an entry from a strictly newer
list. -/
def upsertDevice (c : Nat) (m : List (DeviceEntry × Nat)) (d : DeviceEntry) :
    List (DeviceEntry × Nat) :=
  match m.find? (fun x => x.1.deviceId = d.deviceId) with
  | none => m ++ [(d, c)]
  | some x =>
    if x.2 < c then
      m.map (fun y => if y.1.deviceId = d.deviceId then (d, c) else y)
    else m

/-- `InviteList.merge`: union removed entries deduplicated by id keeping
the max timestamp; union devices preferring the strictly newer list;
exclude devices whose id is removed; `mainDeviceId` from the list with the
larger `createdAt` (ties favour the receiver); `version` and `createdAt`
by max. -/
def merge (x y : InviteList) : InviteList :=
  let removedMap := (x.removed ++ y.removed).foldl upsertRemoved []
  let all1 := x.devices.foldl (upsertDevice x.createdAt) []
  let allDevices := y.devices.foldl (upsertDevice y.createdAt) all1
  { owner := x.owner
    devices := (allDevices.map Prod.fst).filter
      (fun d => ¬ removedMap.any (fun r => r.deviceId = d.deviceId))
    removed := removedMap
    mainDeviceId :=
      if y.createdAt ≤ x.createdAt then x.mainDeviceId else y.mainDeviceId
    version := max x.version y.version
    createdAt := max x.createdAt y.createdAt }

/-- The observable set of removed device ids. -/
def removedIds (l : InviteList) : List String :=
  l.removed.map (fun r => r.deviceId)

/-- The observable list of active device ids. -/
def deviceIds (l : InviteList) : List String :=
  l.devices.map (fun d => d.deviceId)

end IL

namespace DevRec

/-- A `Session` object as held by `DeviceRecord.ts`: `oid` stands for the
JavaScript object identity (`===`), `name` for `session.name`. -/
structure SessionRef where
  oid : Nat
  name : String
  deriving DecidableEq, Repr

/-- The `DeviceRecord` of `DeviceRecord.ts`. -/
structure DeviceRecord where
  deviceId : String
  activeSession : Option SessionRef
  inactiveSessions : List SessionRef
  createdAt : Nat
  staleAt : Option Nat
  deriving DecidableEq, Repr

/-- `createDeviceRecord` (with `Date.now()` passed explicitly). -/
def createDeviceRecord (deviceId : String) (now : Nat) : DeviceRecord :=
  ⟨deviceId, none, [], now, none⟩

/-- `Array.prototype.slice(-1)`: the at-most-one last element. -/
def sliceLast (l : List SessionRef) : List SessionRef :=
  l.drop (l.length - 1)

/-- `rotateSession(record, nextSession)` of `DeviceRecord.ts`. -/
def rotateSession (record : DeviceRecord) (nextSession : SessionRef) :
    DeviceRecord :=
  match record.activeSession with
  | none => { record with activeSession := some nextSession }
  | some current =>
    if current.oid = nextSession.oid ∨ current.name = nextSession.name then
      { record with activeSession := some nextSession }
    else
      let ia := record.inactiveSessions.filter
        (fun s => ¬ s.oid = current.oid ∧ ¬ s.name = current.name)
      { record with
          activeSession := some nextSession
          inactiveSessions := sliceLast (ia ++ [current]) }

end DevRec

namespace Relay

/-- A signed Nostr event as stored by `ControllableRelay` (`id` and `sig`
are produced by the assumed-correct signer; only `id` matters to the
store). -/
structure REvent where
  id : String
  pubkey : String
  created_at : Nat
  kind : Nat
  tags : List (List String)
  content : String
  deriving DecidableEq, Repr

/-- `event.tags?.find(t => t[0] === "d")?.[1]`. -/
def dTag (e : REvent) : Option String :=
  match e.tags.find? (fun t => t.head? = some "d") with
  | none => none
  | some t => t[1]?

/-- Delete the first stored event with the same kind, pubkey and d-tag
(the `for ... break` loop of `ControllableRelay.publish`). -/
def deleteFirstMatch (events : List (String × REvent)) (e : REvent) :
    List (String × REvent) :=
  match events.find?
      (fun kv => kv.2.kind = e.kind ∧ kv.2.pubkey = e.pubkey ∧
        dTag kv.2 = dTag e) with
  | none => events
  | some kv => events.filter (fun kv2 => ¬ kv2.1 = kv.1)

/-- `Map.set` on the event store (keyed by event id): replace in place or
append. -/
def setEvent (events : List (String × REvent)) (e : REvent) :
    List (String × REvent) :=
  if events.any (fun kv => kv.1 = e.id) then
    events.map (fun kv => if kv.1 = e.id then (e.id, e) else kv)
  else events ++ [(e.id, e)]

/-- `ControllableRelay.publish` (store side; signing and delivery elided):
for replaceable kinds `10000 ≤ kind < 20000` the first older event with the
same `(pubkey, kind, d-tag)` is deleted, then the event is stored under its
id. -/
def publish (events : List (String × REvent)) (e : REvent) :
    List (String × REvent) :=
  let events :=
    if 10000 ≤ e.kind ∧ e.kind < 20000 then deleteFirstMatch events e
    else events
  setEvent events e

end Relay

namespace DevRec

theorem sliceLast_append (l : List SessionRef) (x : SessionRef) :
    sliceLast (l ++ [x]) = [x] := by
  unfold sliceLast
  rw [List.length_append]
  simp

/-- C8: `rotateSession(record, next)`: with no active session, `next` is
installed as active with `inactiveSessions` unchanged; when `next` is the
same object as the active session or has the same name, `next` replaces
active in place without demotion; otherwise the current active is demoted
into `inactiveSessions`, which is trimmed to length at most 1 with all
older entries dropped. -/
theorem C8_rotateSession_cases (record : DeviceRecord) (next : SessionRef) :
    (record.activeSession = none →
      rotateSession record next = { record with activeSession := some next }) ∧
    (∀ current, record.activeSession = some current →
      (current.oid = next.oid ∨ current.name = next.name) →
      rotateSession record next = { record with activeSession := some next }) ∧
    (∀ current, record.activeSession = some current →
      ¬ (current.oid = next.oid ∨ current.name = next.name) →
      rotateSession record next =
        { record with
            activeSession := some next
            inactiveSessions := [current] } ∧
      (rotateSession record next).inactiveSessions.length ≤ 1) := by
  refine ⟨?_, ?_, ?_⟩
  · intro h
    unfold rotateSession
    rw [h]
  · intro current h hsame
    unfold rotateSession
    rw [h]
    dsimp only
    rw [if_pos hsame]
  · intro current h hdiff
    have hrot : rotateSession record next =
        { record with
            activeSession := some next
            inactiveSessions := [current] } := by
      unfold rotateSession
      rw [h]
      dsimp only
      rw [if_neg hdiff, sliceLast_append]
    exact ⟨hrot, by rw [hrot]; simp⟩

theorem C8_witness :
    (rotateSession (DeviceRecord.mk "d1" none [] 7 none) ⟨1, "s1"⟩ =
      DeviceRecord.mk "d1" (some ⟨1, "s1"⟩) [] 7 none) ∧
    (rotateSession (DeviceRecord.mk "d1" (some ⟨1, "s1"⟩) [] 7 none) ⟨2, "s1"⟩ =
      DeviceRecord.mk "d1" (some ⟨2, "s1"⟩) [] 7 none) ∧
    (rotateSession (DeviceRecord.mk "d1" (some ⟨1, "s1"⟩) [⟨9, "s0"⟩] 7 none)
        ⟨2, "s2"⟩ =
      DeviceRecord.mk "d1" (some ⟨2, "s2"⟩) [⟨1, "s1"⟩] 7 none) := by
  refine ⟨?_, ?_, ?_⟩
  · exact (C8_rotateSession_cases (DeviceRecord.mk "d1" none [] 7 none)
      ⟨1, "s1"⟩).1 rfl
  · exact (C8_rotateSession_cases (DeviceRecord.mk "d1" (some ⟨1, "s1"⟩) [] 7 none)
      ⟨2, "s1"⟩).2.1 ⟨1, "s1"⟩ rfl (Or.inr rfl)
  · exact ((C8_rotateSession_cases
      (DeviceRecord.mk "d1" (some ⟨1, "s1"⟩) [⟨9, "s0"⟩] 7 none)
      ⟨2, "s2"⟩).2.2 ⟨1, "s1"⟩ rfl (by decide)).1

end DevRec

namespace IL

theorem setDevice_ids {ds : List DeviceEntry} {d : DeviceEntry} :
    ∀ x ∈ (setDevice ds d).map (fun d2 => d2.deviceId),
      x ∈ ds.map (fun d2 => d2.deviceId) ∨ x = d.deviceId := by
  intro x hx
  unfold setDevice at hx
  split at hx
  · rcases List.mem_map.mp hx with ⟨y, hy, rfl⟩
    rcases List.mem_map.mp hy with ⟨z, hz, rfl⟩
    by_cases hc : z.deviceId = d.deviceId
    · right
      rw [if_pos hc]
    · left
      rw [if_neg hc]
      exact List.mem_map_of_mem _ hz
  · rw [List.map_append] at hx
    rcases List.mem_append.mp hx with h | h
    · exact Or.inl h
    · right
      rcases List.mem_singleton.mp h with rfl
      rfl

/-- C9: a deviceId present in `removed` never enters `devices`:
`addDevice` with a removed id is a no-op (the whole list, hence both
`devices` and `removed`, is unchanged); `removeDevice` of a present id
deletes it from `devices` and appends it to `removed` with the
floor-of-now-seconds timestamp; and both operations preserve the
invariant that no active device id is in `removed`. -/
theorem C9_removed_ids_never_reenter_devices :
    (∀ (l : InviteList) (d : DeviceEntry),
      d.deviceId ∈ removedIds l → addDevice l d = l) ∧
    (∀ (l : InviteList) (did : String) (now : Nat),
      did ∈ deviceIds l →
        deviceIds (removeDevice l did now) =
          (deviceIds l).filter (fun x => ¬ x = did) ∧
        (removeDevice l did now).removed = l.removed ++ [⟨did, now⟩]) ∧
    (∀ (l : InviteList) (d : DeviceEntry),
      (∀ x ∈ deviceIds l, ¬ x ∈ removedIds l) →
      ∀ x ∈ deviceIds (addDevice l d), ¬ x ∈ removedIds (addDevice l d)) ∧
    (∀ (l : InviteList) (did : String) (now : Nat),
      (∀ x ∈ deviceIds l, ¬ x ∈ removedIds l) →
      ∀ x ∈ deviceIds (removeDevice l did now),
        ¬ x ∈ removedIds (removeDevice l did now)) := by
  refine ⟨?_, ?_, ?_, ?_⟩
  · intro l d hd
    have hany : (l.removed.any fun r => decide (r.deviceId = d.deviceId)) = true := by
      rw [List.any_eq_true]
      rcases List.mem_map.mp hd with ⟨r, hr, hrd⟩
      exact ⟨r, hr, by simpa using hrd⟩
    unfold addDevice
    rw [if_pos hany]
  · intro l did now hd
    have hany : (l.devices.any fun d => decide (d.deviceId = did)) = true := by
      rw [List.any_eq_true]
      rcases List.mem_map.mp hd with ⟨d2, hd2, hdd⟩
      exact ⟨d2, hd2, by simpa using hdd⟩
    unfold removeDevice
    rw [if_pos hany]
    refine ⟨?_, rfl⟩
    show (l.devices.filter (fun d => ¬ d.deviceId = did)).map
      (fun d => d.deviceId) = _
    unfold deviceIds
    rw [List.filter_map]
    rfl
  · intro l d hinv x
    by_cases hc : (l.removed.any fun r => decide (r.deviceId = d.deviceId)) = true
    · unfold addDevice
      rw [if_pos hc]
      exact hinv x
    · unfold addDevice
      rw [if_neg hc]
      intro hx hrx
      have hrx2 : x ∈ removedIds l := hrx
      rcases setDevice_ids x hx with h | h
      · exact hinv x h hrx2
      · subst h
        rw [List.any_eq_true] at hc
        push_neg at hc
        rcases List.mem_map.mp hrx2 with ⟨r, hr, hrd⟩
        exact absurd (by simpa using hrd) (by simpa using hc r hr)
  · intro l did now hinv x
    by_cases hc : (l.devices.any fun d => decide (d.deviceId = did)) = true
    · unfold removeDevice
      rw [if_pos hc]
      intro hx hrx
      rcases List.mem_map.mp hx with ⟨y, hy, rfl⟩
      rcases List.mem_filter.mp hy with ⟨hy1, hy2⟩
      have hrx2 : y.deviceId ∈ (l.removed ++ [(⟨did, now⟩ : RemovedEntry)]).map
          (fun r => r.deviceId) := hrx
      rw [List.map_append] at hrx2
      rcases List.mem_append.mp hrx2 with h | h
      · exact hinv y.deviceId (List.mem_map_of_mem _ hy1) h
      · rcases List.mem_singleton.mp h with h2
        simp only [decide_eq_true_eq] at hy2
        exact hy2 (by simpa using h2)
    · unfold removeDevice
      rw [if_neg hc]
      exact hinv x

theorem C9_witness :
    (addDevice (InviteList.mk "o" [] [⟨"d1", 5⟩] none 1 9)
        ⟨"pk", "ss", "d1", "lab"⟩ =
      InviteList.mk "o" [] [⟨"d1", 5⟩] none 1 9) ∧
    (deviceIds (removeDevice
        (InviteList.mk "o" [⟨"pk", "ss", "d2", "lab"⟩] [] none 1 9) "d2" 42) =
      [] ∧
     (removeDevice (InviteList.mk "o" [⟨"pk", "ss", "d2", "lab"⟩] [] none 1 9)
        "d2" 42).removed = [⟨"d2", 42⟩]) := by
  constructor
  · exact C9_removed_ids_never_reenter_devices.1 _ _ (by decide)
  · have h := C9_removed_ids_never_reenter_devices.2.1
      (InviteList.mk "o" [⟨"pk", "ss", "d2", "lab"⟩] [] none 1 9) "d2" 42
      (by decide)
    exact ⟨by rw [h.1]; rfl, by rw [h.2]; rfl⟩

theorem any_congr {α : Type} {p q : α → Bool} {l : List α}
    (h : ∀ x ∈ l, p x = q x) : l.any p = l.any q := by
  induction l with
  | nil => rfl
  | cons a l ih =>
    rw [List.any_cons, List.any_cons, h a (List.mem_cons_self a l),
      ih (fun x hx => h x (List.mem_cons_of_mem a hx))]

theorem upsertRemoved_ids (m : List RemovedEntry) (r : RemovedEntry) :
    (upsertRemoved m r).map (fun e => e.deviceId) =
      m.map (fun e => e.deviceId) ++ [r.deviceId] ∨
    ((upsertRemoved m r).map (fun e => e.deviceId) =
      m.map (fun e => e.deviceId) ∧
      r.deviceId ∈ m.map (fun e => e.deviceId)) := by
  unfold upsertRemoved
  rcases hf : m.find? (fun x => x.deviceId = r.deviceId) with _ | x <;>
    simp only [hf]
  · left
    rw [List.map_append]
    rfl
  · right
    have hx : x ∈ m := List.mem_of_find?_eq_some hf
    have hxd : x.deviceId = r.deviceId := by
      simpa using List.find?_some hf
    refine ⟨?_, hxd ▸ List.mem_map_of_mem _ hx⟩
    split
    · rw [List.map_map]
      refine List.map_congr_left ?_
      intro y _
      show (if y.deviceId = r.deviceId then r else y).deviceId = y.deviceId
      by_cases hy : y.deviceId = r.deviceId
      · rw [if_pos hy, hy]
      · rw [if_neg hy]
    · rfl

theorem foldRemoved_mem (rs : List RemovedEntry) :
    ∀ (m : List RemovedEntry) (z : String),
      (z ∈ (rs.foldl upsertRemoved m).map (fun e => e.deviceId)) ↔
        z ∈ m.map (fun e => e.deviceId) ∨ z ∈ rs.map (fun e => e.deviceId) := by
  induction rs with
  | nil =>
    intro m z
    simp
  | cons r rs ih =>
    intro m z
    rw [List.foldl_cons, ih]
    rcases upsertRemoved_ids m r with h | ⟨h, hmem⟩
    · rw [h]
      simp only [List.mem_append, List.mem_singleton, List.map_cons,
        List.mem_cons]
      tauto
    · rw [h]
      simp only [List.map_cons, List.mem_cons]
      constructor
      · tauto
      · rintro (h2 | rfl | h2)
        · exact Or.inl h2
        · exact Or.inl hmem
        · exact Or.inr h2

theorem merge_removedIds (x y : InviteList) (z : String) :
    z ∈ removedIds (merge x y) ↔
      z ∈ removedIds x ∨ z ∈ removedIds y := by
  show z ∈ ((x.removed ++ y.removed).foldl upsertRemoved []).map
    (fun e => e.deviceId) ↔ _
  rw [foldRemoved_mem]
  simp [removedIds]

theorem any_id_iff {α : Type} (f : α → String) (l : List α) (z : String) :
    l.any (fun x => f x = z) = true ↔ z ∈ l.map f := by
  simp only [List.any_eq_true, List.mem_map, decide_eq_true_eq]

theorem pair_any_eq (m : List (DeviceEntry × Nat)) (z : String) :
    m.any (fun e => e.1.deviceId = z) =
      (m.map (fun e => e.1.deviceId)).any (fun s => s = z) := by
  induction m with
  | nil => rfl
  | cons e m ih => simp [List.any_cons, ih]

theorem foldDevice_nil (c : Nat) :
    ∀ (ds : List DeviceEntry) (m : List (DeviceEntry × Nat)),
      (∀ d ∈ ds, ∀ e ∈ m, ¬ e.1.deviceId = d.deviceId) →
      (ds.map (fun d => d.deviceId)).Nodup →
      ds.foldl (upsertDevice c) m = m ++ ds.map (fun d => (d, c)) := by
  intro ds
  induction ds with
  | nil => intro m _ _; simp
  | cons d ds ih =>
    intro m hdisj hnd
    rw [List.map_cons] at hnd
    have hcons := List.nodup_cons.mp hnd
    have hfind : m.find? (fun x => x.1.deviceId = d.deviceId) = none := by
      rw [List.find?_eq_none]
      intro e he
      simpa using hdisj d (List.mem_cons_self d ds) e he
    have hstep : upsertDevice c m d = m ++ [(d, c)] := by
      unfold upsertDevice
      simp only [hfind]
    rw [List.foldl_cons, hstep, ih (m ++ [(d, c)]) ?_ hcons.2]
    · simp
    · intro d' hd' e he
      rcases List.mem_append.mp he with he | he
      · exact hdisj d' (List.mem_cons_of_mem d hd') e he
      · have he2 : e = (d, c) := by simpa using he
        subst he2
        intro hEq
        exact hcons.1 (hEq ▸ List.mem_map_of_mem (fun x => x.deviceId) hd')

theorem foldDevice_keep (c : Nat) :
    ∀ (ds : List DeviceEntry) (m : List (DeviceEntry × Nat)),
      (∀ e ∈ m, ¬ e.2 < c) →
      (ds.map (fun d => d.deviceId)).Nodup →
      ds.foldl (upsertDevice c) m =
        m ++ (ds.filter
            (fun d => ¬ m.any (fun e => e.1.deviceId = d.deviceId))).map
          (fun d => (d, c)) := by
  intro ds
  induction ds with
  | nil => intro m _ _; simp
  | cons d ds ih =>
    intro m hm hnd
    rw [List.map_cons] at hnd
    have hcons := List.nodup_cons.mp hnd
    rw [List.foldl_cons]
    rcases hf : m.find? (fun x => x.1.deviceId = d.deviceId) with _ | x
    · have hany : m.any (fun e => e.1.deviceId = d.deviceId) = false := by
        rw [List.any_eq_false]
        intro e he
        simpa using List.find?_eq_none.mp hf e he
      have hstep : upsertDevice c m d = m ++ [(d, c)] := by
        unfold upsertDevice
        simp only [hf]
      rw [hstep, ih (m ++ [(d, c)]) ?_ hcons.2]
      · rw [List.filter_cons_of_pos (by simp [hany]),
          List.filter_congr (q := fun d' =>
            ¬ m.any (fun e => e.1.deviceId = d'.deviceId)) ?_]
        · simp
        · intro d' hd'
          have hne : ¬ (d.deviceId = d'.deviceId) := by
            intro hEq
            exact hcons.1 (hEq ▸ List.mem_map_of_mem (fun x => x.deviceId) hd')
          simp [List.any_append, hne]
      · intro e he
        rcases List.mem_append.mp he with he | he
        · exact hm e he
        · have he2 : e = (d, c) := by simpa using he
          subst he2
          exact Nat.lt_irrefl c
    · have hx := List.mem_of_find?_eq_some hf
      have hxd : x.1.deviceId = d.deviceId := by
        have h2 := List.find?_some hf
        simpa using h2
      have hany : m.any (fun e => e.1.deviceId = d.deviceId) = true := by
        rw [List.any_eq_true]
        exact ⟨x, hx, by simpa using hxd⟩
      have hstep : upsertDevice c m d = m := by
        unfold upsertDevice
        simp only [hf]
        rw [if_neg (hm x hx)]
      rw [hstep, ih m hm hcons.2, List.filter_cons_of_neg (by simp [hany])]

theorem foldDevice_replace (c : Nat) :
    ∀ (ds : List DeviceEntry) (m : List (DeviceEntry × Nat)),
      (∀ e ∈ m, e.2 < c ∨ ¬ e.1.deviceId ∈ ds.map (fun d => d.deviceId)) →
      (ds.map (fun d => d.deviceId)).Nodup →
      ds.foldl (upsertDevice c) m =
        m.map (fun e =>
          match ds.find? (fun d => d.deviceId = e.1.deviceId) with
          | some d => (d, c)
          | none => e) ++
        (ds.filter
            (fun d => ¬ m.any (fun e => e.1.deviceId = d.deviceId))).map
          (fun d => (d, c)) := by
  intro ds
  induction ds with
  | nil =>
    intro m _ _
    simp
  | cons d ds ih =>
    intro m hm hnd
    rw [List.map_cons] at hnd
    have hcons := List.nodup_cons.mp hnd
    have hdds : ∀ d' ∈ ds, ¬ d.deviceId = d'.deviceId := by
      intro d' hd' hEq
      exact hcons.1 (hEq ▸ List.mem_map_of_mem (fun e => e.deviceId) hd')
    have hfind2 :
        ds.find? (fun d' => d'.deviceId = d.deviceId) = none := by
      rw [List.find?_eq_none]
      intro d' hd'
      simp only [decide_eq_true_eq]
      intro hEq
      exact hdds d' hd' hEq.symm
    rw [List.foldl_cons]
    rcases hf : m.find? (fun x => x.1.deviceId = d.deviceId) with _ | x
    · have hnone : ∀ e ∈ m, ¬ e.1.deviceId = d.deviceId := by
        intro e he
        simpa using List.find?_eq_none.mp hf e he
      have hanyf : m.any (fun e => e.1.deviceId = d.deviceId) = false := by
        rw [List.any_eq_false]
        intro e he
        simpa using hnone e he
      have hstep : upsertDevice c m d = m ++ [(d, c)] := by
        unfold upsertDevice
        simp only [hf]
      rw [hstep, ih (m ++ [(d, c)]) ?_ hcons.2]
      · rw [List.map_append]
        have h1 : ([((d, c) : DeviceEntry × Nat)]).map (fun e =>
            match ds.find? (fun d' => d'.deviceId = e.1.deviceId) with
            | some d' => (d', c)
            | none => e) = [(d, c)] := by
          simp only [List.map_cons, List.map_nil, hfind2]
        rw [h1]
        have h2 : m.map (fun e =>
            match ds.find? (fun d' => d'.deviceId = e.1.deviceId) with
            | some d' => (d', c)
            | none => e) = m.map (fun e =>
            match (d :: ds).find? (fun d' => d'.deviceId = e.1.deviceId) with
            | some d' => (d', c)
            | none => e) := by
          refine List.map_congr_left ?_
          intro e he
          have hb : decide (d.deviceId = e.1.deviceId) = false := by
            simp only [decide_eq_false_iff_not]
            intro hEq
            exact hnone e he hEq.symm
          rw [List.find?_cons, hb]
        rw [h2]
        have h3 : ds.filter (fun d' =>
            ¬ (m ++ [(d, c)]).any (fun e => e.1.deviceId = d'.deviceId)) =
            ds.filter (fun d' =>
              ¬ m.any (fun e => e.1.deviceId = d'.deviceId)) := by
          refine List.filter_congr ?_
          intro d' hd'
          simp [List.any_append, hdds d' hd']
        rw [h3, List.filter_cons_of_pos (by simp [hanyf])]
        simp
      · intro e he
        rcases List.mem_append.mp he with he | he
        · rcases hm e he with h | h
          · exact Or.inl h
          · refine Or.inr ?_
            intro hmem
            exact h (by rw [List.map_cons]; exact List.mem_cons_of_mem _ hmem)
        · have he2 : e = (d, c) := by simpa using he
          subst he2
          exact Or.inr hcons.1
    · have hx := List.mem_of_find?_eq_some hf
      have hxd : x.1.deviceId = d.deviceId := by
        have h2 := List.find?_some hf
        simpa using h2
      have hxlt : x.2 < c := by
        rcases hm x hx with h | h
        · exact h
        · exact absurd
            (by rw [List.map_cons, hxd]; exact List.mem_cons_self _ _) h
      have hanyt : m.any (fun e => e.1.deviceId = d.deviceId) = true := by
        rw [List.any_eq_true]
        exact ⟨x, hx, by simpa using hxd⟩
      have hstep : upsertDevice c m d =
          m.map (fun y => if y.1.deviceId = d.deviceId then (d, c) else y) := by
        unfold upsertDevice
        simp only [hf]
        rw [if_pos hxlt]
      rw [hstep, ih _ ?_ hcons.2]
      · have hids : (m.map (fun y =>
            if y.1.deviceId = d.deviceId then (d, c) else y)).map
              (fun e => e.1.deviceId) =
            m.map (fun e => e.1.deviceId) := by
          rw [List.map_map]
          refine List.map_congr_left ?_
          intro y _
          by_cases hy : y.1.deviceId = d.deviceId
          · simp [hy]
          · simp [hy]
        have h2 : (m.map (fun y =>
            if y.1.deviceId = d.deviceId then (d, c) else y)).map (fun e =>
              match ds.find? (fun d' => d'.deviceId = e.1.deviceId) with
              | some d' => (d', c)
              | none => e) =
            m.map (fun e =>
              match (d :: ds).find? (fun d' => d'.deviceId = e.1.deviceId) with
              | some d' => (d', c)
              | none => e) := by
          rw [List.map_map]
          refine List.map_congr_left ?_
          intro y _
          by_cases hy : y.1.deviceId = d.deviceId
          · show (match ds.find? (fun d' =>
                d'.deviceId = (if y.1.deviceId = d.deviceId then
                  ((d, c) : DeviceEntry × Nat) else y).1.deviceId) with
              | some d' => (d', c)
              | none => (if y.1.deviceId = d.deviceId then (d, c) else y)) = _
            rw [if_pos hy]
            show (match ds.find? (fun d' => d'.deviceId = d.deviceId) with
              | some d' => (d', c)
              | none => ((d, c) : DeviceEntry × Nat)) = _
            have hb : decide (d.deviceId = y.1.deviceId) = true := by
              simp only [decide_eq_true_eq]
              exact hy.symm
            rw [List.find?_cons, hb]
            simp only [hfind2]
          · show (match ds.find? (fun d' =>
                d'.deviceId = (if y.1.deviceId = d.deviceId then
                  ((d, c) : DeviceEntry × Nat) else y).1.deviceId) with
              | some d' => (d', c)
              | none => (if y.1.deviceId = d.deviceId then (d, c) else y)) = _
            rw [if_neg hy]
            have hb : decide (d.deviceId = y.1.deviceId) = false := by
              simp only [decide_eq_false_iff_not]
              intro hEq
              exact hy hEq.symm
            rw [List.find?_cons, hb]
        have h3 : ds.filter (fun d' =>
            ¬ (m.map (fun y => if y.1.deviceId = d.deviceId then (d, c)
                else y)).any (fun e => e.1.deviceId = d'.deviceId)) =
            ds.filter (fun d' =>
              ¬ m.any (fun e => e.1.deviceId = d'.deviceId)) := by
          refine List.filter_congr ?_
          intro d' _
          rw [pair_any_eq, hids, ← pair_any_eq]
        rw [h2, h3, List.filter_cons_of_neg (by simp [hanyt])]
      · intro e he
        rcases List.mem_map.mp he with ⟨y, hy, rfl⟩
        by_cases hyd : y.1.deviceId = d.deviceId
        · rw [if_pos hyd]
          exact Or.inr hcons.1
        · rw [if_neg hyd]
          rcases hm y hy with h | h
          · exact Or.inl h
          · refine Or.inr ?_
            intro hmem
            exact h (by rw [List.map_cons]; exact List.mem_cons_of_mem _ hmem)

theorem pair_any_map (l : List DeviceEntry) (c : Nat) (z : String) :
    (l.map (fun e => (e, c))).any (fun e => e.1.deviceId = z) =
      l.any (fun e => e.deviceId = z) := by
  induction l with
  | nil => rfl
  | cons e l ih => simp [ih]

theorem map_pair_fst (l : List DeviceEntry) (c : Nat) :
    (l.map (fun e => (e, c))).map Prod.fst = l := by
  induction l with
  | nil => rfl
  | cons e l ih => simp [ih]

theorem merge_devices_newer_snd (x y : InviteList)
    (hnx : (deviceIds x).Nodup) (hny : (deviceIds y).Nodup)
    (hlt : x.createdAt < y.createdAt) (d : DeviceEntry) :
    d ∈ (merge x y).devices ↔
      ((d ∈ y.devices ∨ (d ∈ x.devices ∧ ¬ d.deviceId ∈ deviceIds y)) ∧
        ¬ (d.deviceId ∈ removedIds x ∨ d.deviceId ∈ removedIds y)) := by
  have hall1 : x.devices.foldl (upsertDevice x.createdAt) [] =
      x.devices.map (fun e => (e, x.createdAt)) := by
    have h := foldDevice_nil x.createdAt x.devices []
      (fun d' _ e he => absurd he (List.not_mem_nil e)) hnx
    simpa using h
  have hfold : y.devices.foldl (upsertDevice y.createdAt)
        (x.devices.map (fun e => (e, x.createdAt))) =
      (x.devices.map (fun e => (e, x.createdAt))).map (fun e =>
        match y.devices.find? (fun d' => d'.deviceId = e.1.deviceId) with
        | some d' => (d', y.createdAt)
        | none => e) ++
      (y.devices.filter (fun d' =>
          ¬ (x.devices.map (fun e => (e, x.createdAt))).any
            (fun e => e.1.deviceId = d'.deviceId))).map
        (fun d' => (d', y.createdAt)) :=
    foldDevice_replace y.createdAt y.devices _
      (by
        intro e he
        rcases List.mem_map.mp he with ⟨e', _, rfl⟩
        exact Or.inl hlt) hny
  have hM : ((x.devices.map (fun e => (e, x.createdAt))).map (fun e =>
      match y.devices.find? (fun d' => d'.deviceId = e.1.deviceId) with
      | some d' => (d', y.createdAt)
      | none => e)).map Prod.fst =
      x.devices.map (fun e =>
        match y.devices.find? (fun d' => d'.deviceId = e.deviceId) with
        | some d' => d'
        | none => e) := by
    rw [List.map_map, List.map_map]
    refine List.map_congr_left ?_
    intro e _
    show Prod.fst (match y.devices.find? (fun d' => d'.deviceId = e.deviceId)
        with
      | some d' => (d', y.createdAt)
      | none => (e, x.createdAt)) = _
    rcases hfe : y.devices.find? (fun d' => d'.deviceId = e.deviceId)
        with _ | d' <;>
      simp only [hfe]
  have hF : ((y.devices.filter (fun d' =>
      ¬ (x.devices.map (fun e => (e, x.createdAt))).any
        (fun e => e.1.deviceId = d'.deviceId))).map
        (fun d' => (d', y.createdAt))).map Prod.fst =
      y.devices.filter (fun d' =>
        ¬ x.devices.any (fun e => e.deviceId = d'.deviceId)) := by
    rw [map_pair_fst]
    refine List.filter_congr ?_
    intro d' _
    rw [pair_any_map]
  show d ∈ ((y.devices.foldl (upsertDevice y.createdAt)
      (x.devices.foldl (upsertDevice x.createdAt) [])).map Prod.fst).filter
        (fun d' => ¬ ((x.removed ++ y.removed).foldl upsertRemoved []).any
          (fun r => r.deviceId = d'.deviceId)) ↔ _
  rw [hall1, hfold, List.map_append, hM, hF, List.mem_filter,
    List.mem_append]
  refine and_congr ?_ ?_
  · constructor
    · rintro (h | h)
      · rcases List.mem_map.mp h with ⟨e, he, hs⟩
        rcases hfe : y.devices.find? (fun d' => d'.deviceId = e.deviceId)
            with _ | d'
        · simp only [hfe] at hs
          subst hs
          refine Or.inr ⟨he, ?_⟩
          intro hmem
          rcases List.mem_map.mp hmem with ⟨d', hd', hid⟩
          have h2 := List.find?_eq_none.mp hfe d' hd'
          simp only [decide_eq_true_eq] at h2
          exact h2 hid
        · simp only [hfe] at hs
          subst hs
          exact Or.inl (List.mem_of_find?_eq_some hfe)
      · exact Or.inl (List.mem_filter.mp h).1
    · rintro (h | ⟨hdx, hdy⟩)
      · by_cases hdx : d.deviceId ∈ deviceIds x
        · rcases List.mem_map.mp hdx with ⟨e, he, hei⟩
          refine Or.inl (List.mem_map.mpr ⟨e, he, ?_⟩)
          rcases hfe : y.devices.find? (fun d' => d'.deviceId = e.deviceId)
              with _ | d'
          · have h2 := List.find?_eq_none.mp hfe d h
            simp only [decide_eq_true_eq] at h2
            exact absurd hei.symm h2
          · have hd1 : d'.deviceId = e.deviceId := by
              simpa using List.find?_some hfe
            have hd2 := List.mem_of_find?_eq_some hfe
            have hd3 : d' = d :=
              List.inj_on_of_nodup_map hny hd2 h (by rw [hd1, hei])
            simp only [hfe]
            exact hd3
        · refine Or.inr (List.mem_filter.mpr ⟨h, ?_⟩)
          simp only [decide_eq_true_eq]
          rw [any_id_iff]
          exact hdx
      · refine Or.inl (List.mem_map.mpr ⟨d, hdx, ?_⟩)
        have hfe : y.devices.find? (fun d' => d'.deviceId = d.deviceId) =
            none := by
          rw [List.find?_eq_none]
          intro d' hd'
          simp only [decide_eq_true_eq]
          intro hEq
          exact hdy (hEq ▸ List.mem_map_of_mem (fun z => z.deviceId) hd')
        simp only [hfe]
  · simp only [decide_eq_true_eq]
    refine not_congr ?_
    rw [any_id_iff, foldRemoved_mem]
    simp [removedIds]

theorem merge_devices_newer_fst (x y : InviteList)
    (hnx : (deviceIds x).Nodup) (hny : (deviceIds y).Nodup)
    (hlt : x.createdAt < y.createdAt) (d : DeviceEntry) :
    d ∈ (merge y x).devices ↔
      ((d ∈ y.devices ∨ (d ∈ x.devices ∧ ¬ d.deviceId ∈ deviceIds y)) ∧
        ¬ (d.deviceId ∈ removedIds x ∨ d.deviceId ∈ removedIds y)) := by
  have hall1 : y.devices.foldl (upsertDevice y.createdAt) [] =
      y.devices.map (fun e => (e, y.createdAt)) := by
    have h := foldDevice_nil y.createdAt y.devices []
      (fun d' _ e he => absurd he (List.not_mem_nil e)) hny
    simpa using h
  have hfold : x.devices.foldl (upsertDevice x.createdAt)
        (y.devices.map (fun e => (e, y.createdAt))) =
      y.devices.map (fun e => (e, y.createdAt)) ++
      (x.devices.filter (fun d' =>
          ¬ (y.devices.map (fun e => (e, y.createdAt))).any
            (fun e => e.1.deviceId = d'.deviceId))).map
        (fun d' => (d', x.createdAt)) :=
    foldDevice_keep x.createdAt x.devices _
      (by
        intro e he
        rcases List.mem_map.mp he with ⟨e', _, rfl⟩
        exact Nat.lt_asymm hlt) hnx
  have hF : ((x.devices.filter (fun d' =>
      ¬ (y.devices.map (fun e => (e, y.createdAt))).any
        (fun e => e.1.deviceId = d'.deviceId))).map
        (fun d' => (d', x.createdAt))).map Prod.fst =
      x.devices.filter (fun d' =>
        ¬ y.devices.any (fun e => e.deviceId = d'.deviceId)) := by
    rw [map_pair_fst]
    refine List.filter_congr ?_
    intro d' _
    rw [pair_any_map]
  show d ∈ ((x.devices.foldl (upsertDevice x.createdAt)
      (y.devices.foldl (upsertDevice y.createdAt) [])).map Prod.fst).filter
        (fun d' => ¬ ((y.removed ++ x.removed).foldl upsertRemoved []).any
          (fun r => r.deviceId = d'.deviceId)) ↔ _
  rw [hall1, hfold, List.map_append, map_pair_fst, hF, List.mem_filter,
    List.mem_append]
  refine and_congr ?_ ?_
  · refine or_congr Iff.rfl ?_
    rw [List.mem_filter]
    refine and_congr Iff.rfl ?_
    simp only [decide_eq_true_eq]
    refine not_congr ?_
    rw [any_id_iff]
    rfl
  · simp only [decide_eq_true_eq]
    refine not_congr ?_
    rw [any_id_iff, foldRemoved_mem]
    simp [removedIds]
    exact Or.comm

theorem merge_self_devices (a : InviteList)
    (hna : (deviceIds a).Nodup)
    (hdisj : ∀ i ∈ deviceIds a, ¬ i ∈ removedIds a) :
    (merge a a).devices = a.devices := by
  have hall1 : a.devices.foldl (upsertDevice a.createdAt) [] =
      a.devices.map (fun e => (e, a.createdAt)) := by
    have h := foldDevice_nil a.createdAt a.devices []
      (fun d' _ e he => absurd he (List.not_mem_nil e)) hna
    simpa using h
  have hfold : a.devices.foldl (upsertDevice a.createdAt)
        (a.devices.map (fun e => (e, a.createdAt))) =
      a.devices.map (fun e => (e, a.createdAt)) ++
      (a.devices.filter (fun d' =>
          ¬ (a.devices.map (fun e => (e, a.createdAt))).any
            (fun e => e.1.deviceId = d'.deviceId))).map
        (fun d' => (d', a.createdAt)) :=
    foldDevice_keep a.createdAt a.devices _
      (by
        intro e he
        rcases List.mem_map.mp he with ⟨e', _, rfl⟩
        exact Nat.lt_irrefl _) hna
  have hfilt : a.devices.filter (fun d' =>
      ¬ (a.devices.map (fun e => (e, a.createdAt))).any
        (fun e => e.1.deviceId = d'.deviceId)) = [] := by
    rw [List.filter_eq_nil_iff]
    intro d hd
    rw [pair_any_map]
    simp only [decide_eq_true_eq, Decidable.not_not]
    rw [any_id_iff]
    exact List.mem_map_of_mem (fun e => e.deviceId) hd
  show ((a.devices.foldl (upsertDevice a.createdAt)
      (a.devices.foldl (upsertDevice a.createdAt) [])).map Prod.fst).filter
        (fun d' => ¬ ((a.removed ++ a.removed).foldl upsertRemoved []).any
          (fun r => r.deviceId = d'.deviceId)) = a.devices
  rw [hall1, hfold, hfilt, List.map_nil, List.append_nil, map_pair_fst]
  rw [List.filter_eq_self]
  intro d hd
  simp only [decide_eq_true_eq]
  rw [any_id_iff, foldRemoved_mem]
  have hnd : ¬ d.deviceId ∈ removedIds a :=
    hdisj d.deviceId (List.mem_map_of_mem (fun e => e.deviceId) hd)
  simp only [List.map_nil, List.not_mem_nil, false_or, List.map_append,
    List.mem_append]
  intro hc
  rcases hc with hc | hc <;> exact hnd hc

/-- C6 counterexample: two invite lists with the same owner and the same
`createdAt`, each built by `fromEvent` from a signed event carrying the
same device id `d1` but different labels.  `a.merge(b)` keeps `a`'s entry
while `b.merge(a)` keeps `b`'s (`other.createdAt > existing` is strict),
so the active-device sets differ and merge is not commutative. -/
theorem C6_counterexample_equal_createdAt :
    (fromEvent ⟨"o", 5, INVITE_LIST_KIND,
        [["device", "e", "s", "d1", "A"]], ""⟩).owner =
      (fromEvent ⟨"o", 5, INVITE_LIST_KIND,
        [["device", "e", "s", "d1", "B"]], ""⟩).owner ∧
    (⟨"e", "s", "d1", "A"⟩ : DeviceEntry) ∈
      (merge
        (fromEvent ⟨"o", 5, INVITE_LIST_KIND,
          [["device", "e", "s", "d1", "A"]], ""⟩)
        (fromEvent ⟨"o", 5, INVITE_LIST_KIND,
          [["device", "e", "s", "d1", "B"]], ""⟩)).devices ∧
    ¬ (⟨"e", "s", "d1", "A"⟩ : DeviceEntry) ∈
      (merge
        (fromEvent ⟨"o", 5, INVITE_LIST_KIND,
          [["device", "e", "s", "d1", "B"]], ""⟩)
        (fromEvent ⟨"o", 5, INVITE_LIST_KIND,
          [["device", "e", "s", "d1", "A"]], ""⟩)).devices := by
  decide

/-- C6: the spec claims `merge` is commutative and idempotent over
{active devices, removed ids}.  Commutativity of the active-device set
fails when both lists carry the same `createdAt`
(`C6_counterexample_equal_createdAt`).  Amended statement: (A) the
removed-id sets of `x.merge(y)` and `y.merge(x)` always agree; (B) the
active-device sets of `x.merge(y)` and `y.merge(x)` agree whenever
`x.createdAt ≠ y.createdAt`, given the `Map`-backed class invariant that
each list's device ids are duplicate-free; (C) `a.merge(a)` has exactly
`a`'s active devices and removed ids whenever additionally no active
device id is also a removed id (the invariant maintained by
`addDevice`/`removeDevice`). -/
theorem C6_merge_commutative_idempotent :
    (∀ (x y : InviteList) (z : String),
        z ∈ removedIds (merge x y) ↔ z ∈ removedIds (merge y x)) ∧
    (∀ (x y : InviteList),
        (deviceIds x).Nodup → (deviceIds y).Nodup →
        ¬ x.createdAt = y.createdAt →
        ∀ d : DeviceEntry,
          d ∈ (merge x y).devices ↔ d ∈ (merge y x).devices) ∧
    (∀ a : InviteList,
        (deviceIds a).Nodup →
        (∀ i ∈ deviceIds a, ¬ i ∈ removedIds a) →
        (merge a a).devices = a.devices ∧
        ∀ z : String, z ∈ removedIds (merge a a) ↔ z ∈ removedIds a) := by
  refine ⟨?_, ?_, ?_⟩
  · intro x y z
    rw [merge_removedIds, merge_removedIds]
    exact Or.comm
  · intro x y hnx hny hne d
    rcases Nat.lt_or_ge x.createdAt y.createdAt with hlt | hge
    · exact (merge_devices_newer_snd x y hnx hny hlt d).trans
        (merge_devices_newer_fst x y hnx hny hlt d).symm
    · have hlt : y.createdAt < x.createdAt :=
        Nat.lt_of_le_of_ne hge (fun h => hne h.symm)
      exact (merge_devices_newer_fst y x hny hnx hlt d).trans
        (merge_devices_newer_snd y x hny hnx hlt d).symm
  · intro a hna hdisj
    refine ⟨merge_self_devices a hna hdisj, ?_⟩
    intro z
    rw [merge_removedIds]
    exact or_self_iff

/-- Witness for C6: the amended parts applied to concrete invite lists
with distinct `createdAt` values and disjoint device/removed ids. -/
theorem C6_witness :
    ("r1" ∈ removedIds (merge
        (InviteList.mk "o" [⟨"e", "s", "d1", "A"⟩] [⟨"r1", 3⟩] none 1 5)
        (InviteList.mk "o" [⟨"e2", "s2", "d2", "B"⟩] [] none 1 7)) ↔
      "r1" ∈ removedIds (merge
        (InviteList.mk "o" [⟨"e2", "s2", "d2", "B"⟩] [] none 1 7)
        (InviteList.mk "o" [⟨"e", "s", "d1", "A"⟩] [⟨"r1", 3⟩] none 1 5))) ∧
    ((⟨"e2", "s2", "d2", "B"⟩ : DeviceEntry) ∈ (merge
        (InviteList.mk "o" [⟨"e", "s", "d1", "A"⟩] [⟨"r1", 3⟩] none 1 5)
        (InviteList.mk "o" [⟨"e2", "s2", "d2", "B"⟩] [] none 1 7)).devices ↔
      (⟨"e2", "s2", "d2", "B"⟩ : DeviceEntry) ∈ (merge
        (InviteList.mk "o" [⟨"e2", "s2", "d2", "B"⟩] [] none 1 7)
        (InviteList.mk "o"
          [⟨"e", "s", "d1", "A"⟩] [⟨"r1", 3⟩] none 1 5)).devices) ∧
    (merge (InviteList.mk "o" [⟨"e", "s", "d1", "A"⟩] [⟨"r1", 3⟩] none 1 5)
        (InviteList.mk "o"
          [⟨"e", "s", "d1", "A"⟩] [⟨"r1", 3⟩] none 1 5)).devices =
      (InviteList.mk "o"
        [⟨"e", "s", "d1", "A"⟩] [⟨"r1", 3⟩] none 1 5).devices ∧
    ("x" ∈ removedIds (merge
        (InviteList.mk "o" [⟨"e", "s", "d1", "A"⟩] [⟨"r1", 3⟩] none 1 5)
        (InviteList.mk "o" [⟨"e", "s", "d1", "A"⟩] [⟨"r1", 3⟩] none 1 5)) ↔
      "x" ∈ removedIds
        (InviteList.mk "o" [⟨"e", "s", "d1", "A"⟩] [⟨"r1", 3⟩] none 1 5)) := by
  refine ⟨C6_merge_commutative_idempotent.1
      (InviteList.mk "o" [⟨"e", "s", "d1", "A"⟩] [⟨"r1", 3⟩] none 1 5)
      (InviteList.mk "o" [⟨"e2", "s2", "d2", "B"⟩] [] none 1 7) "r1",
    C6_merge_commutative_idempotent.2.1
      (InviteList.mk "o" [⟨"e", "s", "d1", "A"⟩] [⟨"r1", 3⟩] none 1 5)
      (InviteList.mk "o" [⟨"e2", "s2", "d2", "B"⟩] [] none 1 7)
      (by decide) (by decide) (by decide) ⟨"e2", "s2", "d2", "B"⟩,
    (C6_merge_commutative_idempotent.2.2
      (InviteList.mk "o" [⟨"e", "s", "d1", "A"⟩] [⟨"r1", 3⟩] none 1 5)
      (by decide) (by decide)).1,
    (C6_merge_commutative_idempotent.2.2
      (InviteList.mk "o" [⟨"e", "s", "d1", "A"⟩] [⟨"r1", 3⟩] none 1 5)
      (by decide) (by decide)).2 "x"⟩

end IL

namespace Relay

/-- C10 counterexample: the claim says the store keeps "the newest" event
per `(pubkey, kind, d-tag)`; the code keeps the most recently *published*
one regardless of `created_at`.  Publishing an event with `created_at = 2`
and then one with `created_at = 1` (same pubkey, kind 10078, same d-tag)
leaves exactly the second, older event in the store. -/
theorem C10_counterexample_retained_is_not_newest :
    publish (publish [] (REvent.mk "id1" "pk" 2 10078 [["d", "x"]] "first"))
        (REvent.mk "id2" "pk" 1 10078 [["d", "x"]] "second") =
      [("id2", REvent.mk "id2" "pk" 1 10078 [["d", "x"]] "second")] ∧
    (REvent.mk "id2" "pk" 1 10078 [["d", "x"]] "second").created_at <
      (REvent.mk "id1" "pk" 2 10078 [["d", "x"]] "first").created_at := by
  exact ⟨rfl, by decide⟩

/-- C10 (amended): for replaceable kinds `10000 ≤ k < 20000`, after
publishing two events with the same pubkey, kind and d-tag into an empty
store, exactly one is retained, namely the most recently published one
(regardless of `created_at`). -/
theorem C10_replaceable_keeps_last_published (e1 e2 : REvent)
    (hk1 : 10000 ≤ e1.kind) (hk2 : e1.kind < 20000)
    (hke : e2.kind = e1.kind) (hp : e2.pubkey = e1.pubkey)
    (hd : dTag e2 = dTag e1) :
    publish (publish [] e1) e2 = [(e2.id, e2)] := by
  have h1 : publish [] e1 = [(e1.id, e1)] := by
    unfold publish deleteFirstMatch setEvent
    dsimp only
    split <;> rfl
  rw [h1]
  unfold publish
  rw [if_pos (by omega : 10000 ≤ e2.kind ∧ e2.kind < 20000)]
  have h2 : deleteFirstMatch [(e1.id, e1)] e2 = [] := by
    unfold deleteFirstMatch
    rw [List.find?_cons]
    have ht : decide ((e1.id, e1).2.kind = e2.kind ∧
        (e1.id, e1).2.pubkey = e2.pubkey ∧
        dTag (e1.id, e1).2 = dTag e2) = true := by
      simp only [decide_eq_true_eq]
      exact ⟨hke.symm, hp.symm, hd.symm⟩
    rw [ht]
    dsimp only
    simp
  rw [h2]
  rfl

theorem C10_witness :
    publish (publish [] (REvent.mk "a1" "pk" 1 10078 [["d", "x"]] "first"))
        (REvent.mk "a2" "pk" 2 10078 [["d", "x"]] "second") =
      [("a2", REvent.mk "a2" "pk" 2 10078 [["d", "x"]] "second")] :=
  C10_replaceable_keeps_last_published _ _ (by decide) (by decide) rfl rfl rfl

end Relay
